import Mathlib

/-!
Verification of the chaq-di-ts dependency-injection library (final draft in
src/index.ts: `anyCycilcDependencies`, `getCycles`, `CyclicDependencyError`,
`makeInjectorFactory`).  Member names are strings; a dependency mapping is a
list of keys (in record-enumeration order) together with a lookup function
from member name to its declared dependency list.
-/

namespace ChaqDI

/-- A dependency mapping: `keys` is the record's key list in enumeration
order, `deps` the per-member dependency list (`dependencies[k]`). -/
structure DepGraph where
  keys : List String
  deps : String → List String

/-- Data-model invariant (spec section 3): every name used as a dependency is
itself a key of the mapping. -/
def DepGraph.Closed (D : DepGraph) : Prop :=
  ∀ x ∈ D.keys, ∀ y ∈ D.deps x, y ∈ D.keys

instance (D : DepGraph) : Decidable D.Closed := by
  unfold DepGraph.Closed
  infer_instance

/-- Directed edge of the dependency graph: member `x` depends on `y`. -/
def DepGraph.Edge (D : DepGraph) (x y : String) : Prop :=
  x ∈ D.keys ∧ y ∈ D.deps x

/-- The graph has a cycle: some node reaches itself in at least one step
(includes self-loops). -/
def DepGraph.hasCycle (D : DepGraph) : Prop :=
  ∃ x, Relation.TransGen D.Edge x x

/-- Visit states of the simple cycle check (source keeps the typo VISITNG). -/
inductive VisitState where
  | VISITNG
  | VISITED
deriving DecidableEq

/-- The `visitaitonMap` of `anyCycilcDependencies`: absent = unvisited. -/
abbrev VMap := String → Option VisitState

/-- `visitaitonMap.set(k, s)`. -/
def vset (m : VMap) (k : String) (s : VisitState) : VMap :=
  fun x => if x = k then some s else m x

/-- The neighbor loop of `dfsVisit` in `anyCycilcDependencies`; `recv` is the
recursive visit of an unvisited neighbor.  Returning `true` models the early
`return true` (cycle found). -/
def dfsNeighbors (key : String) (recv : String → VMap → Bool × VMap) :
    List String → VMap → Bool × VMap
  | [], m => (false, m)
  | n :: rest, m =>
    if n = key then (true, m)
    else
      match m n with
      | some VisitState.VISITNG => (true, m)
      | some VisitState.VISITED => dfsNeighbors key recv rest m
      | none =>
        match recv n m with
        | (true, m2) => (true, m2)
        | (false, m2) => dfsNeighbors key recv rest m2

/-- `dfsVisit` of `anyCycilcDependencies`.  The JS recursion terminates
because only unvisited nodes are entered; here that is made explicit with a
fuel argument (one unit per nested visit; `keys.length + 1` always
suffices for closed mappings). -/
def dfsVisit (D : DepGraph) : Nat → String → VMap → Bool × VMap
  | 0, _, m => (true, m)
  | fuel + 1, key, m =>
    let neighbors := D.deps key
    if neighbors.length > 0 then
      match dfsNeighbors key (dfsVisit D fuel) neighbors (vset m key VisitState.VISITNG) with
      | (true, m2) => (true, m2)
      | (false, m2) => (false, vset m2 key VisitState.VISITED)
    else (false, vset m key VisitState.VISITED)

/-- The top-level `for (const key in dependencies)` loop. -/
def anyLoop (D : DepGraph) (fuel : Nat) : List String → VMap → Bool
  | [], _ => false
  | k :: rest, m =>
    match m k with
    | some _ => anyLoop D fuel rest m
    | none =>
      match dfsVisit D fuel k m with
      | (true, _) => true
      | (false, m2) => anyLoop D fuel rest m2

/-- `anyCycilcDependencies` (final draft, src/index.ts lines 1140-1180). -/
def anyCycilcDependencies (D : DepGraph) : Bool :=
  anyLoop D (D.keys.length + 1) D.keys (fun _ => none)

/-- Per-node bookkeeping of `getCycles` (`VisitingInfo` / `VisitedInfo`). -/
inductive NodeInfo where
  | visiting (visitIdx minVisitIdx : Nat)
  | visited (minVisitIdx : Nat) (cycleParent : String)
deriving DecidableEq

/-- The `minVisitIdx` field of either record. -/
def NodeInfo.minIdx : NodeInfo → Nat
  | NodeInfo.visiting _ m => m
  | NodeInfo.visited m _ => m

/-- Mutable state of `getCycles`'s DFS: `mapNodeInfo` (whose JS iteration
order equals insertion order = `visitOrderedList`), `visitOrderedList`,
`setSelfCycle` (insertion-ordered), and the `cycles` flag. -/
structure SccState where
  info : String → Option NodeInfo
  order : List String
  selfCycle : List String
  cyclesFlag : Bool

/-- Initial state of the `getCycles` traversal. -/
def SccState.init : SccState :=
  { info := fun _ => none, order := [], selfCycle := [], cyclesFlag := false }

/-- `mapNodeInfo.set(k, v)`. -/
def iset (f : String → Option NodeInfo) (k : String) (v : NodeInfo) :
    String → Option NodeInfo :=
  fun x => if x = k then some v else f x

/-- The neighbor loop of `getCycles`'s `dfsVisit`.  `vIdx` is the current
node's `visitIdx`, `minV` its `minVisitIdx` so far; every change to `minV`
also updates the map entry, mirroring the shared mutable `nodeInfo` object.
`recv` is the recursive visit, returning the finalized `VisitedInfo`.
The JS `typeof neighbor !== 'string'` guard is vacuous here (all names are
strings). -/
def goNbrs (key : String) (vIdx : Nat) (recv : String → SccState → NodeInfo × SccState) :
    List String → Nat → SccState → Nat × SccState
  | [], minV, s => (minV, s)
  | n :: rest, minV, s =>
    if n = key then
      goNbrs key vIdx recv rest minV
        { s with
          selfCycle := if key ∈ s.selfCycle then s.selfCycle else s.selfCycle ++ [key],
          cyclesFlag := true }
    else
      match s.info n with
      | none =>
        match recv n s with
        | (ninfo, s1) =>
          goNbrs key vIdx recv rest (min minV ninfo.minIdx)
            { s1 with info := iset s1.info key (NodeInfo.visiting vIdx (min minV ninfo.minIdx)) }
      | some (NodeInfo.visiting _ nmin) =>
        goNbrs key vIdx recv rest (min minV nmin)
          { s with info := iset s.info key (NodeInfo.visiting vIdx (min minV nmin)),
                   cyclesFlag := true }
      | some (NodeInfo.visited nmin _) =>
        goNbrs key vIdx recv rest (min minV nmin)
          { s with info := iset s.info key (NodeInfo.visiting vIdx (min minV nmin)) }

/-- `dfsVisit` of `getCycles` (src/index.ts lines 1017-1064); fuel models the
bounded recursion into unvisited nodes.  On finalization `cycleParent`
is `visitOrderedList[minVisitIdx]`. -/
def dfsVisitG (D : DepGraph) : Nat → String → SccState → NodeInfo × SccState
  | 0, key, s => (NodeInfo.visited 0 key, s)
  | fuel + 1, key, s =>
    let vIdx := s.order.length
    let s1 : SccState :=
      { s with order := s.order ++ [key], info := iset s.info key (NodeInfo.visiting vIdx vIdx) }
    match goNbrs key vIdx (dfsVisitG D fuel) (D.deps key) vIdx s1 with
    | (minV, s2) =>
      let fin := NodeInfo.visited minV (s2.order.getD minV "")
      (fin, { s2 with info := iset s2.info key fin })

/-- Top-level node loop of `getCycles` (lines 1066-1071). -/
def sccLoop (D : DepGraph) (fuel : Nat) : List String → SccState → SccState
  | [], s => s
  | k :: rest, s =>
    match s.info k with
    | some _ => sccLoop D fuel rest s
    | none => sccLoop D fuel rest (dfsVisitG D fuel k s).2

/-- `getComponentRoot`: follow `cycleParent` links to their fixed point.  The
source memoizes via `mapComponentRoot`, which does not change the result;
the recursion is bounded here by a fuel (`order.length` suffices since each
step strictly decreases the visit index). -/
def rootOf (info : String → Option NodeInfo) : Nat → String → String
  | 0, n => n
  | fuel + 1, n =>
    match info n with
    | some (NodeInfo.visited _ p) => if p = n then n else rootOf info fuel p
    | _ => n

/-- Add `node` to the bucket of `root` in the insertion-ordered
`mapComponents`. -/
def addToComponent (comps : List (String × List String)) (root node : String) :
    List (String × List String) :=
  if comps.any (fun p => p.1 = root) then
    comps.map (fun p => if p.1 = root then (p.1, p.2 ++ [node]) else p)
  else comps ++ [(root, [node])]

/-- The grouping loop over `mapNodeInfo.entries()` (iteration order =
insertion order = visit order) building `mapComponents`. -/
def collectComponents (info : String → Option NodeInfo) (order : List String) :
    List (String × List String) :=
  order.foldl (fun comps node => addToComponent comps (rootOf info order.length node) node) []

/-- `getCycles` (final draft, src/index.ts lines 992-1132). -/
def getCycles (D : DepGraph) : List (List String) :=
  let s := sccLoop D (D.keys.length + 1) D.keys SccState.init
  if s.cyclesFlag = false then []
  else
    let comps := collectComponents s.info s.order
    let listNonSelfCycles := (comps.map Prod.snd).filter (fun l => 1 < l.length)
    let listSelfCycles :=
      (s.selfCycle.filter (fun n =>
        (rootOf s.info s.order.length n == n) &&
        !(match comps.find? (fun p => p.1 = n) with
          | some p => 1 < p.2.length
          | none => false))).map (fun n => [n])
    listSelfCycles ++ listNonSelfCycles

/-- Stable insertion into a sorted list: `a` goes before the first element
not strictly below it (JS `Array.prototype.sort` is stable per ES2019, which
the repository requires). -/
def insertSorted {α : Type} (le : α → α → Bool) (a : α) : List α → List α
  | [] => [a]
  | b :: bs => if le b a && !le a b then b :: insertSorted le a bs else a :: b :: bs

/-- Stable sort by a boolean total preorder. -/
def stableSort {α : Type} (le : α → α → Bool) : List α → List α
  | [] => []
  | a :: rest => insertSorted le a (stableSort le rest)

/-- Lexicographic comparison of character lists by code point, which is the
code-unit order JS's default `Array.prototype.sort` applies to strings (the
names here are ASCII, where `localeCompare` agrees with it as well). -/
def strLTchars : List Char → List Char → Bool
  | _, [] => false
  | [], _ :: _ => true
  | a :: as, b :: bs =>
    if a.toNat < b.toNat then true
    else if b.toNat < a.toNat then false
    else strLTchars as bs

/-- Strict code-unit order on strings. -/
def strLT (a b : String) : Bool := strLTchars a.data b.data

/-- Non-strict code-unit order on strings. -/
def strLE (a b : String) : Bool := !(strLT b a)

/-- The comparator of `CyclicDependencyError`'s constructor: ascending
length, ties broken by the comma-joined member names (`a.join()`). -/
def cycleLE (a b : List String) : Bool :=
  decide (a.length < b.length) ||
    (a.length == b.length && strLE (String.intercalate "," a) (String.intercalate "," b))

/-- The normalization done by `CyclicDependencyError`'s constructor
(src/index.ts lines 967-977): sort each cycle's names, then sort the cycles
by size and lexicographically. -/
def normalizeCycles (cycles : List (List String)) : List (List String) :=
  stableSort cycleLE (cycles.map (stableSort strLE))

/-- `CyclicDependencyError` as carried data: its fixed message and the
optional (already normalized) cycle list; `cycles` is absent (`none`) when
the constructor received no list. -/
structure CyclicDependencyError where
  message : String
  cycles : Option (List (List String))
deriving DecidableEq

/-- `CyclicDependencyError.STANDARD_MESSAGE`. -/
def STANDARD_MESSAGE : String := "At least one cycle found in provided dependencies"

/-- The `CyclicDependencyError` constructor: stores the message and the
normalized cycles (when given). -/
def mkCyclicDependencyError (message : String) (cycles : Option (List (List String))) :
    CyclicDependencyError :=
  { message := message, cycles := cycles.map normalizeCycles }

/-- The `checkForCycles` option of the final draft. -/
inductive CheckMode where
  | skip
  | simple
  | detailed
deriving DecidableEq

/-!  Resolution engine.  Member values are JS values of an interface type
`α`; `Option α` models a possibly-nullish JS value (`none` = null or
undefined, which the cache-hit test `tryGet != undefined` rejects).
Providers may throw (`Except ε`).  The state carries the cache
(`mapModuleObjects`; outer `none` = key absent), the emitted log statements,
and an instrumentation counter of provider invocations per member. -/

/-- Result of an accessor call: a value, a propagated provider exception, or
stack exhaustion (unbounded recursion when validation was skipped on a
cyclic graph). -/
inductive Outcome (α ε : Type) where
  | ok (v : Option α)
  | exn (e : ε)
  | fuelOut
deriving DecidableEq

/-- A provider table: each member's construction function, taking the
assembled dependency entries (name/value pairs in declared order; JS builds
the args object from them with `Object.fromEntries`). -/
def Providers (α ε : Type) : Type := String → List (String × Option α) → Except ε (Option α)

/-- Mutable state of one injector instance. -/
structure RState (α : Type) where
  cache : String → Option (Option α)
  trace : List String
  calls : String → Nat

/-- Fresh injector state: empty cache, no log lines, no provider calls. -/
def RState.init {α : Type} : RState α :=
  { cache := fun _ => none, trace := [], calls := fun _ => 0 }

/-- `mapModuleObjects.set(k, v)`. -/
def cset {α : Type} (c : String → Option (Option α)) (k : String) (v : Option α) :
    String → Option (Option α) :=
  fun x => if x = k then some v else c x

/-- Increment the instrumentation counter for `k`. -/
def bump (f : String → Nat) (k : String) : String → Nat :=
  fun x => if x = k then f x + 1 else f x

/-- Outcome of resolving a dependency list: the collected entries, or a
propagated exception / stack exhaustion. -/
inductive DepsRes (α ε : Type) where
  | ok (es : List (String × Option α))
  | exn (e : ε)
  | fuelOut
deriving DecidableEq

/-- Resolve the declared dependencies in order through the injector's own
accessors (`memberDepsNames.map(depName => finishedInjector[depName])`);
`recv` is the accessor. -/
def resolveDeps {α ε : Type} (recv : String → RState α → Outcome α ε × RState α) :
    List String → RState α → DepsRes α ε × RState α
  | [], s => (DepsRes.ok [], s)
  | d :: rest, s =>
    match recv d s with
    | (Outcome.ok v, s1) =>
      match resolveDeps recv rest s1 with
      | (DepsRes.ok es, s2) => (DepsRes.ok ((d, v) :: es), s2)
      | (DepsRes.exn e, s2) => (DepsRes.exn e, s2)
      | (DepsRes.fuelOut, s2) => (DepsRes.fuelOut, s2)
    | (Outcome.exn e, s1) => (DepsRes.exn e, s1)
    | (Outcome.fuelOut, s1) => (DepsRes.fuelOut, s1)

/-- The member accessor `get` (src/index.ts lines 1240-1280).  The log lines
are always collected here (the source emits them only when `options.log` is
set, which does not affect any other behavior).  The fuel bounds the
recursion depth; `keys.length + 1` suffices for validated acyclic graphs,
while running out models the stack exhaustion on cyclic ones. -/
def getMember {α ε : Type} (D : DepGraph) (P : Providers α ε) :
    Nat → String → RState α → Outcome α ε × RState α
  | 0, _, s => (Outcome.fuelOut, s)
  | fuel + 1, member, s =>
    let s0 : RState α := { s with trace := s.trace ++ [member ++ " - get"] }
    match s0.cache member with
    | some (some v) =>
      (Outcome.ok (some v),
       { s0 with trace := s0.trace ++ [member ++ " - already constructed"] })
    | _ =>
      let sc : RState α := { s0 with trace := s0.trace ++ [member ++ " - constructing"] }
      match resolveDeps (getMember D P fuel) (D.deps member) sc with
      | (DepsRes.ok es, s1) =>
        let s2 : RState α := { s1 with calls := bump s1.calls member }
        match P member es with
        | Except.error e => (Outcome.exn e, s2)
        | Except.ok v =>
          (Outcome.ok v,
           { s2 with cache := cset s2.cache member v,
                     trace := s2.trace ++ [member ++ " - constructed"] })
      | (DepsRes.exn e, s1) => (Outcome.exn e, s1)
      | (DepsRes.fuelOut, s1) => (Outcome.fuelOut, s1)

/-- The canonical recursion budget used for a validated graph. -/
def injectorFuel (D : DepGraph) : Nat := D.keys.length + 1

/-- One accessor call on the injector. -/
def access {α ε : Type} (D : DepGraph) (P : Providers α ε) (m : String) (s : RState α) :
    Outcome α ε × RState α :=
  getMember D P (injectorFuel D) m s

/-- A sequence of accessor calls on one injector instance, collecting each
call's outcome. -/
def runAccesses {α ε : Type} (D : DepGraph) (P : Providers α ε) :
    List String → RState α → List (Outcome α ε) × RState α
  | [], s => ([], s)
  | m :: rest, s =>
    match access D P m s with
    | (r, s1) =>
      match runAccesses D P rest s1 with
      | (rs, s2) => (r :: rs, s2)

/-- Resolver creation (`makeInjectorFactory`'s returned factory, src/index.ts
lines 1213-1290): run the selected validation, throwing a
`CyclicDependencyError` on a cycle, otherwise hand back the fresh injector
state (whose accessors are `access D P`). -/
def makeInjector {α ε : Type} (D : DepGraph) (P : Providers α ε) (mode : CheckMode) :
    Except CyclicDependencyError (RState α) :=
  match mode with
  | CheckMode.simple =>
    if anyCycilcDependencies D then Except.error (mkCyclicDependencyError STANDARD_MESSAGE none)
    else Except.ok RState.init
  | CheckMode.detailed =>
    let cycles := getCycles D
    if cycles.length > 0 then
      Except.error (mkCyclicDependencyError STANDARD_MESSAGE (some cycles))
    else Except.ok RState.init
  | CheckMode.skip => Except.ok RState.init

/-!  Concrete instances used by counterexamples and witnesses. -/

/-- Dependency lists of the README's `detailed` example: a three-cycle
`a→b→c→a`, a self-loop `e` (reached from `d`), and a two-cycle `f⇄g` with an
extra edge `f→a`. -/
def depsReadme : String → List String := fun k =>
  if k = "a" then ["b"]
  else if k = "b" then ["c"]
  else if k = "c" then ["a"]
  else if k = "d" then ["e"]
  else if k = "e" then ["e"]
  else if k = "f" then ["g", "a"]
  else if k = "g" then ["f"]
  else []

/-- The README's `detailed` example graph. -/
def Dreadme : DepGraph := ⟨["a", "b", "c", "d", "e", "f", "g"], depsReadme⟩

/-- Dependency lists of the three-SCC mapping from the spec and the
repository's `SCC` test. -/
def deps8 : String → List String := fun k =>
  if k = "a" then ["b"]
  else if k = "b" then ["c", "e", "f"]
  else if k = "c" then ["d", "g"]
  else if k = "d" then ["c", "h"]
  else if k = "e" then ["a", "f"]
  else if k = "f" then ["g"]
  else if k = "g" then ["f"]
  else if k = "h" then ["d", "g", "h"]
  else []

/-- The three-SCC mapping in its declared key order. -/
def D8a : DepGraph := ⟨["a", "b", "c", "d", "e", "f", "g", "h"], deps8⟩

/-- The same mapping enumerated starting from the `f⇄g` component. -/
def D8b : DepGraph := ⟨["f", "g", "c", "d", "h", "a", "b", "e"], deps8⟩

/-- A single member with no dependencies (acyclic, closed). -/
def Dsingle : DepGraph := ⟨["a"], fun _ => []⟩

/-- A provider that constructs the JS value `undefined` for every member. -/
def Pnull : Providers Nat Unit := fun _ _ => Except.ok none

/-- The Pythagorean-triple example graph of the repository's tests. -/
def Dtri : DepGraph :=
  ⟨["a", "b", "c", "digest"], fun k =>
    if k = "c" then ["a", "b"]
    else if k = "digest" then ["a", "b", "c"]
    else []⟩

/-- Providers for `Dtri` (`c` and `digest` fold their dependency values). -/
def Ptri : Providers Nat Unit := fun m es =>
  if m = "a" then Except.ok (some 3)
  else if m = "b" then Except.ok (some 4)
  else if m = "c" then Except.ok (some 5)
  else Except.ok (some (es.map (fun p => p.2.getD 0)).sum)

/-- Providers for `Dtri` whose provider for `b` always throws. -/
def PtriFail : Providers Nat Unit := fun m es =>
  if m = "b" then Except.error ()
  else if m = "a" then Except.ok (some 3)
  else if m = "c" then Except.ok (some 5)
  else Except.ok (some (es.map (fun p => p.2.getD 0)).sum)

/-- A one-member self-loop mapping (cyclic, closed). -/
def Dselfa : DepGraph := ⟨["a"], fun _ => ["a"]⟩

/-!  Proof-side predicates for the simple cycle check. -/

/-- Pointwise extension of visitation maps: every recorded entry persists
unchanged. -/
def MapLe (m m2 : VMap) : Prop := ∀ x v, m x = some v → m2 x = some v

/-- Number of keys not yet recorded in the visitation map. -/
def whites (D : DepGraph) (m : VMap) : Nat :=
  (D.keys.filter (fun k => (m k).isNone)).length

/-- Every in-progress node reaches `t` along dependency edges. -/
def GrayReach (D : DepGraph) (m : VMap) (t : String) : Prop :=
  ∀ x, m x = some VisitState.VISITNG → Relation.ReflTransGen D.Edge x t

/-- No finished node lies on a cycle. -/
def BlackSafe (D : DepGraph) (m : VMap) : Prop :=
  ∀ x, m x = some VisitState.VISITED → ¬ Relation.TransGen D.Edge x x

/-- Postcondition of a cycle-free visit of `key` turning map `m` into `m2`. -/
def VisitPost (D : DepGraph) (m m2 : VMap) (key : String) : Prop :=
  MapLe m m2 ∧ m2 key = some VisitState.VISITED ∧
    (∀ x, m2 x = some VisitState.VISITNG → m x = some VisitState.VISITNG) ∧
    (∀ x, m2 x = none → m x = none) ∧ BlackSafe D m2

/-- Behavioral specification of a visit function whose nesting depth is
bounded by `F`. -/
def VisitSpec (D : DepGraph) (recv : String → VMap → Bool × VMap) (F : Nat) : Prop :=
  ∀ key m, key ∈ D.keys → m key = none → whites D m < F →
    GrayReach D m key → BlackSafe D m →
    ((recv key m).1 = true → D.hasCycle) ∧
    ((recv key m).1 = false → VisitPost D m (recv key m).2 key)

/-- The top-level loop never sees an in-progress node. -/
def NoGray (m : VMap) : Prop := ∀ x, m x ≠ some VisitState.VISITNG

/-- Per-call guarantees of one accessor invocation on member `m` from state
`s`, for arbitrary (possibly throwing) providers: the call completes, proper
cache entries persist unchanged, every cache change stores a completed
construction's result, a propagated exception leaves `m`'s entry untouched,
a returned value is exactly what ends up cached for `m`, and members of rank
at or above `m`'s are untouched. -/
@[reducible] def BConj {α ε : Type} (rank : String → Nat)
    (pr : Outcome α ε × RState α) (m : String) (s : RState α) : Prop :=
  pr.1 ≠ Outcome.fuelOut ∧
  (∀ k v, s.cache k = some (some v) → pr.2.cache k = some (some v)) ∧
  (∀ k, pr.2.cache k ≠ s.cache k → ∃ v, pr.2.cache k = some v) ∧
  (∀ e, pr.1 = Outcome.exn e → pr.2.cache m = s.cache m) ∧
  (∀ v, pr.1 = Outcome.ok v → pr.2.cache m = some v) ∧
  (∀ k, k ≠ m → rank m ≤ rank k → pr.2.cache k = s.cache k ∧ pr.2.calls k = s.calls k)

/-- `BConj` holds for every member whose rank lies below the fuel bound. -/
@[reducible] def BSpec {α ε : Type} (D : DepGraph) (rank : String → Nat) (F : Nat)
    (recv : String → RState α → Outcome α ε × RState α) : Prop :=
  ∀ m s, m ∈ D.keys → rank m < F → BConj rank (recv m s) m s

/-!  Proof-side predicates for the detailed (SCC) cycle check. -/

/-- `x` occupies position `i` of the visit order. -/
def posOk (order : List String) (x : String) (i : Nat) : Prop :=
  i < order.length ∧ order.getD i "" = x

/-- `x` is currently in progress. -/
def isGray (s : SccState) (x : String) : Prop :=
  ∃ i mi, s.info x = some (NodeInfo.visiting i mi)

/-- The `minVisitIdx` currently recorded for `x` (0 if unrecorded). -/
def infoMin (s : SccState) (x : String) : Nat :=
  match s.info x with
  | some i => i.minIdx
  | none => 0

/-- Number of keys not yet recorded in `mapNodeInfo`. -/
def whitesG (D : DepGraph) (s : SccState) : Nat :=
  (D.keys.filter (fun k => (s.info k).isNone)).length

/-- State invariant of the SCC traversal: recorded nodes are exactly the
visit order (with no duplicates and all among the keys), stored indices are
consistent positions with `minVisitIdx` bounded by the visit index and
`cycleParent` read off the order list, self-cycle entries are recorded, a
raised flag certifies a real cycle and comes with a normalization witness,
and while the flag is down no finished node lies on a cycle. -/
structure SccOk (D : DepGraph) (s : SccState) : Prop where
  dom : ∀ x, (s.info x).isSome = true ↔ x ∈ s.order
  nodup : s.order.Nodup
  keysub : ∀ x ∈ s.order, x ∈ D.keys
  visitingOk : ∀ x i mi, s.info x = some (NodeInfo.visiting i mi) →
    posOk s.order x i ∧ mi ≤ i
  visitedOk : ∀ x mi p, s.info x = some (NodeInfo.visited mi p) →
    ∃ i, posOk s.order x i ∧ mi ≤ i ∧ p = s.order.getD mi ""
  selfsub : ∀ x ∈ s.selfCycle, x ∈ s.order
  flagCyc : s.cyclesFlag = true → D.hasCycle
  flagWit : s.cyclesFlag = true →
    s.selfCycle ≠ [] ∨ ∃ x i, posOk s.order x i ∧ (s.info x).isSome = true ∧ infoMin s x < i
  blackSafe : s.cyclesFlag = false → ∀ x mi p, s.info x = some (NodeInfo.visited mi p) →
    ¬ Relation.TransGen D.Edge x x

/-- How one traversal step may evolve the state: order and self-cycle list
grow by appending, the flag never drops, recorded nodes stay recorded with a
non-increasing `minVisitIdx`, finished nodes are frozen, no node in progress
at the start changes except the step's own key, and nothing new is in
progress afterwards. -/
def SccEvolve (key : String) (s s2 : SccState) : Prop :=
  (∃ t, s2.order = s.order ++ t) ∧
  (∃ t, s2.selfCycle = s.selfCycle ++ t) ∧
  (s.cyclesFlag = true → s2.cyclesFlag = true) ∧
  (∀ x, (s.info x).isSome = true → (s2.info x).isSome = true ∧ infoMin s2 x ≤ infoMin s x) ∧
  (∀ x mi p, s.info x = some (NodeInfo.visited mi p) → s2.info x = some (NodeInfo.visited mi p)) ∧
  (∀ x, isGray s x → x ≠ key → s2.info x = s.info x) ∧
  (∀ x, isGray s2 x → isGray s x)

/-- All in-progress nodes reach `t` along dependency edges. -/
def GrayReachG (D : DepGraph) (s : SccState) (t : String) : Prop :=
  ∀ x, isGray s x → Relation.ReflTransGen D.Edge x t

/-- Behavioral specification of the SCC visit function with fuel bound `F`:
from an invariant state with the key unrecorded and all in-progress nodes
reaching the key, the visit preserves the invariant, evolves the state,
finishes the key with the returned record, creates no new in-progress nodes
and leaves all previously in-progress nodes untouched. -/
@[reducible] def GVisitSpec (D : DepGraph) (recv : String → SccState → NodeInfo × SccState)
    (F : Nat) : Prop :=
  ∀ key s, key ∈ D.keys → s.info key = none → whitesG D s < F →
    SccOk D s → GrayReachG D s key →
    SccOk D (recv key s).2 ∧
    SccEvolve key s (recv key s).2 ∧
    (recv key s).2.info key = some (recv key s).1 ∧
    (∃ mi p, (recv key s).1 = NodeInfo.visited mi p) ∧
    (∀ x, isGray s x → (recv key s).2.info x = s.info x)

/-- Provider tables that always construct a proper (non-nullish) value. -/
def GoodP {α ε : Type} (P : Providers α ε) : Prop :=
  ∀ k es, ∃ v : α, P k es = Except.ok (some v)

/-- Bookkeeping invariant of states reachable under good providers: an
uncached member's provider has never run, a properly cached member's exactly
once, and no stored value is nullish. -/
def CCInv {α : Type} (s : RState α) : Prop :=
  ∀ k, (s.cache k = none → s.calls k = 0) ∧
    (∀ w, s.cache k = some (some w) → s.calls k = 1) ∧ s.cache k ≠ some none

/-- Per-call guarantees of one accessor invocation under good providers:
the access returns a proper value which is cached for `m` afterwards, the
invariant is preserved, proper entries persist, members of rank at or above
`m`'s are untouched, and a cache hit changes nothing but the log. -/
@[reducible] def AConj {α ε : Type} (rank : String → Nat)
    (pr : Outcome α ε × RState α) (m : String) (s : RState α) : Prop :=
  ∃ v s2, pr = (Outcome.ok (some v), s2) ∧
    s2.cache m = some (some v) ∧ CCInv s2 ∧
    (∀ k w, s.cache k = some (some w) → s2.cache k = some (some w)) ∧
    (∀ k, k ≠ m → rank m ≤ rank k → s2.cache k = s.cache k ∧ s2.calls k = s.calls k) ∧
    (∀ w, s.cache m = some (some w) → v = w ∧ s2.cache = s.cache ∧ s2.calls = s.calls)

/-- `AConj` for every member below the fuel bound, from invariant states. -/
@[reducible] def ASpec {α ε : Type} (D : DepGraph) (rank : String → Nat) (F : Nat)
    (recv : String → RState α → Outcome α ε × RState α) : Prop :=
  ∀ m s, m ∈ D.keys → rank m < F → CCInv s → AConj rank (recv m s) m s

/-- C1: detailed validation does NOT return exactly the strongly-connected
components.  On the README's own example (SCCs `{a,b,c}`, `{f,g}`, self-loop
`{e}`), `getCycles` merges `{f,g}` into `{a,b,c}` because its low-link update
also uses already-finished (VISITED) neighbors such as the edge `f→a`; the
repository's README documents the output `[[e],[f,g],[a,b,c]]` for this very
graph, so the code contradicts its own documentation. -/
theorem C1_getCycles_merges_sccs :
    getCycles Dreadme = [["e"], ["a", "b", "c", "f", "g"]] ∧
    getCycles Dreadme ≠ [["e"], ["f", "g"], ["a", "b", "c"]] :=
  ⟨by decide, by decide⟩

/-- C4: the set of cycles reported by detailed validation is NOT independent
of the mapping's key enumeration order.  `D8a` and `D8b` are the same
dependency mapping (equal key sets, identical dependency function), yet even
after the `CyclicDependencyError` normalization one order yields the three
true components and the other a single merged pseudo-component. -/
theorem C4_not_order_independent :
    D8a.keys.Perm D8b.keys ∧ D8a.deps = D8b.deps ∧
    normalizeCycles (getCycles D8a) = [["f", "g"], ["a", "b", "e"], ["c", "d", "h"]] ∧
    normalizeCycles (getCycles D8b) = [["a", "b", "c", "d", "e", "f", "g", "h"]] :=
  ⟨by decide, rfl, by decide, by decide⟩

/-- C5: on the three-SCC mapping, detailed validation reports the three
components `{a,b,e}`, `{f,g}`, `{c,d,h}` in the declared key order, but NOT
for every enumeration order: enumerating the keys as `f,g,c,d,h,a,b,e`
produces one merged component containing all eight members. -/
theorem C5_three_scc_order_dependent :
    getCycles D8a = [["a", "b", "e"], ["c", "d", "h"], ["g", "f"]] ∧
    getCycles D8b = [["f", "g", "c", "d", "h", "a", "b", "e"]] :=
  ⟨by decide, by decide⟩

/-- C3 counterexample: an acyclic, closed mapping and a provider table under
which a member's provider is invoked twice across the resolver's lifetime.
`Pnull.a` returns the JS value `undefined`, which the cache-hit test
`tryGet != undefined` never accepts, so the second access of `a`
reconstructs it — refuting "invoked at most once" as universally stated. -/
theorem C3_cex_nullish_reinvocation :
    (runAccesses Dsingle Pnull ["a", "a"] RState.init).2.calls "a" = 2 :=
  by decide

/-!  Correctness of the simple cycle check. -/

theorem vset_self (m : VMap) (k : String) (s : VisitState) : vset m k s k = some s := by
  simp [vset]

theorem vset_ne (m : VMap) {x k : String} (h : x ≠ k) (s : VisitState) :
    vset m k s x = m x := by
  simp [vset, h]

theorem mapLe_refl (m : VMap) : MapLe m m := fun _ _ h => h

theorem mapLe_trans {a b c : VMap} (h1 : MapLe a b) (h2 : MapLe b c) : MapLe a c :=
  fun x v hx => h2 x v (h1 x v hx)

theorem mapLe_vset {m : VMap} {k : String} (hk : m k = none) (s : VisitState) :
    MapLe m (vset m k s) := by
  intro x v hx
  by_cases hxk : x = k
  · subst hxk; rw [hk] at hx; cases hx
  · rw [vset_ne m hxk]; exact hx

theorem length_filter_mono {l : List String} {p q : String → Bool}
    (h : ∀ a, p a = true → q a = true) :
    (l.filter p).length ≤ (l.filter q).length := by
  induction l with
  | nil => simp
  | cons a t ih =>
    rcases hp : p a with _ | _
    · rw [List.filter_cons, hp]
      rcases hq : q a with _ | _
      · rw [List.filter_cons, hq]
        simpa using ih
      · rw [List.filter_cons, hq]
        simp only [if_true, List.length_cons, cond_true, cond_false]
        exact Nat.le_succ_of_le ih
    · rw [List.filter_cons, hp, List.filter_cons, h a hp]
      simpa using ih

theorem whites_mono {D : DepGraph} {m m2 : VMap} (h : MapLe m m2) :
    whites D m2 ≤ whites D m := by
  refine length_filter_mono ?_
  intro a ha
  simp only [Option.isNone_iff_eq_none] at ha ⊢
  rcases hma : m a with _ | v
  · rfl
  · rw [h a v hma] at ha; cases ha

theorem whites_aux {m : VMap} {k : String} (s : VisitState) (hm : m k = none) :
    ∀ l : List String, k ∈ l →
      (l.filter fun x => ((vset m k s) x).isNone).length <
        (l.filter fun x => (m x).isNone).length := by
  intro l
  induction l with
  | nil => intro h; cases h
  | cons a t ih =>
    intro hk
    by_cases hak : a = k
    · subst hak
      rw [List.filter_cons, List.filter_cons]
      simp only [vset_self, hm, Option.isNone_none, Option.isNone_some]
      have hle : ((t.filter fun x => ((vset m a s) x).isNone)).length ≤
          ((t.filter fun x => (m x).isNone)).length :=
        length_filter_mono (fun x hx => by
          by_cases hxa : x = a
          · subst hxa; simp [vset_self] at hx
          · rwa [vset_ne m hxa] at hx)
      simp only [Bool.false_eq_true, if_false, if_true, List.length_cons]
      omega
    · have hkt : k ∈ t := by
        rcases List.mem_cons.mp hk with h | h
        · exact absurd h.symm hak
        · exact h
      have hrec := ih hkt
      have hva : (vset m k s) a = m a := vset_ne m (fun h => hak h) s
      rw [List.filter_cons, List.filter_cons, hva]
      rcases hma : (m a).isNone with _ | _
      · simpa using hrec
      · simp only [if_true, List.length_cons]
        omega

theorem whites_vset_lt {D : DepGraph} {m : VMap} {k : String} (hk : k ∈ D.keys)
    (hm : m k = none) (s : VisitState) :
    whites D (vset m k s) < whites D m :=
  whites_aux s hm D.keys hk

theorem whites_le_keys (D : DepGraph) (m : VMap) : whites D m ≤ D.keys.length :=
  List.length_filter_le _ _

theorem dfsNeighbors_spec (D : DepGraph) (hC : D.Closed) (key : String) (F : Nat)
    (recv : String → VMap → Bool × VMap) (hrecv : VisitSpec D recv F) :
    ∀ ns m, key ∈ D.keys → (∀ n ∈ ns, n ∈ D.deps key) →
      m key = some VisitState.VISITNG → whites D m < F →
      GrayReach D m key → BlackSafe D m →
      ((dfsNeighbors key recv ns m).1 = true → D.hasCycle) ∧
      ((dfsNeighbors key recv ns m).1 = false →
        MapLe m (dfsNeighbors key recv ns m).2 ∧
        (∀ n ∈ ns, n ≠ key ∧ (dfsNeighbors key recv ns m).2 n = some VisitState.VISITED) ∧
        (∀ x, (dfsNeighbors key recv ns m).2 x = some VisitState.VISITNG →
          m x = some VisitState.VISITNG) ∧
        (∀ x, (dfsNeighbors key recv ns m).2 x = none → m x = none) ∧
        BlackSafe D (dfsNeighbors key recv ns m).2) := by
  intro ns
  induction ns with
  | nil =>
    intro m hkey _ hkg _ _ hblack
    constructor
    · intro h; simp [dfsNeighbors] at h
    · intro _
      exact ⟨mapLe_refl m, by simp, fun x hx => hx, fun x hx => hx, hblack⟩
  | cons n rest ih =>
    intro m hkey hns hkg hwh hreach hblack
    by_cases hnk : n = key
    · have hres : dfsNeighbors key recv (n :: rest) m = (true, m) := by
        simp [dfsNeighbors, hnk]
      rw [hres]
      constructor
      · intro _
        refine ⟨key, Relation.TransGen.single ⟨hkey, ?_⟩⟩
        have := hns n (List.mem_cons_self _ _)
        rwa [hnk] at this
      · intro h; cases h
    · have hedge : D.Edge key n := ⟨hkey, hns n (List.mem_cons_self _ _)⟩
      rcases hmn : m n with _ | st
      · -- unvisited neighbor: recurse
        have hnkeys : n ∈ D.keys := hC key hkey n (hns n (List.mem_cons_self _ _))
        have hreach2 : GrayReach D m n := fun x hx =>
          Relation.ReflTransGen.tail (hreach x hx) hedge
        have hrec := hrecv n m hnkeys hmn hwh hreach2 hblack
        rcases hrecv2 : recv n m with ⟨b, m2⟩
        rw [hrecv2] at hrec
        cases b
        · -- recv returned false: continue with rest on m2
          obtain ⟨hle, hm2n, hgr, hnone, hbs⟩ := hrec.2 rfl
          have hstep : dfsNeighbors key recv (n :: rest) m = dfsNeighbors key recv rest m2 := by
            simp [dfsNeighbors, hnk, hmn, hrecv2]
          have ihr := ih m2 hkey (fun x hx => hns x (List.mem_cons_of_mem _ hx))
            (hle key _ hkg) (lt_of_le_of_lt (whites_mono hle) hwh)
            (fun x hx => hreach x (hgr x hx)) hbs
          rw [hstep]
          refine ⟨ihr.1, fun hf => ?_⟩
          obtain ⟨hle2, hrest, hgr2, hnone2, hbs2⟩ := ihr.2 hf
          refine ⟨mapLe_trans hle hle2, ?_, fun x hx => hgr x (hgr2 x hx),
            fun x hx => hnone x (hnone2 x hx), hbs2⟩
          intro x hx
          rcases List.mem_cons.mp hx with h | h
          · subst h
            exact ⟨hnk, hle2 x _ hm2n⟩
          · exact hrest x h
        · -- recv returned true: cycle found
          have hstep : dfsNeighbors key recv (n :: rest) m = (true, m2) := by
            simp [dfsNeighbors, hnk, hmn, hrecv2]
          rw [hstep]
          exact ⟨fun _ => hrec.1 rfl, fun h => by cases h⟩
      · cases st
        · -- neighbor in progress: cycle
          have hstep : dfsNeighbors key recv (n :: rest) m = (true, m) := by
            simp [dfsNeighbors, hnk, hmn]
          rw [hstep]
          refine ⟨fun _ => ⟨n, Relation.TransGen.tail' (hreach n hmn) hedge⟩, fun h => by cases h⟩
        · -- neighbor finished: skip
          have hstep : dfsNeighbors key recv (n :: rest) m = dfsNeighbors key recv rest m := by
            simp [dfsNeighbors, hnk, hmn]
          have ihr := ih m hkey (fun x hx => hns x (List.mem_cons_of_mem _ hx)) hkg hwh hreach hblack
          rw [hstep]
          refine ⟨ihr.1, fun hf => ?_⟩
          obtain ⟨hle2, hrest, hgr2, hnone2, hbs2⟩ := ihr.2 hf
          refine ⟨hle2, ?_, hgr2, hnone2, hbs2⟩
          intro x hx
          rcases List.mem_cons.mp hx with h | h
          · subst h
            exact ⟨hnk, hle2 x _ hmn⟩
          · exact hrest x h

theorem visitSpec_dfsVisit (D : DepGraph) (hC : D.Closed) :
    ∀ F, VisitSpec D (dfsVisit D F) F := by
  intro F
  induction F with
  | zero =>
    intro key m _ _ hwh _ _
    omega
  | succ fuel ih =>
    intro key m hkey hm hwh hreach hblack
    by_cases hlen : (D.deps key).length > 0
    · -- nonempty dependency list: mark in progress and walk neighbors
      have hm1key : vset m key VisitState.VISITNG key = some VisitState.VISITNG :=
        vset_self _ _ _
      have hwh1 : whites D (vset m key VisitState.VISITNG) < fuel := by
        have h1 := whites_vset_lt hkey hm VisitState.VISITNG
        omega
      have hreach1 : GrayReach D (vset m key VisitState.VISITNG) key := by
        intro x hx
        by_cases hxk : x = key
        · subst hxk; exact Relation.ReflTransGen.refl
        · rw [vset_ne m hxk] at hx
          exact hreach x hx
      have hblack1 : BlackSafe D (vset m key VisitState.VISITNG) := by
        intro x hx
        by_cases hxk : x = key
        · subst hxk; rw [vset_self] at hx; cases hx
        · rw [vset_ne m hxk] at hx
          exact hblack x hx
      have hspec := dfsNeighbors_spec D hC key fuel (dfsVisit D fuel) ih (D.deps key)
        (vset m key VisitState.VISITNG) hkey (fun n hn => hn) hm1key hwh1 hreach1 hblack1
      rcases hdn : dfsNeighbors key (dfsVisit D fuel) (D.deps key)
          (vset m key VisitState.VISITNG) with ⟨b, m2⟩
      rw [hdn] at hspec
      dsimp only at hspec
      cases b
      · -- neighbor walk clean: finalize key as finished
        have hres : dfsVisit D (fuel + 1) key m = (false, vset m2 key VisitState.VISITED) := by
          simp only [dfsVisit, if_pos hlen, hdn]
        obtain ⟨hle, hallns, hgr, hnone, hbs⟩ := hspec.2 rfl
        rw [hres]
        dsimp only
        refine ⟨(fun h => by cases h), fun _ => ?_⟩
        have hmle1 : MapLe m (vset m key VisitState.VISITNG) := mapLe_vset hm _
        have hm2key : m2 key = some VisitState.VISITNG := hle key _ hm1key
        refine ⟨?_, vset_self _ _ _, ?_, ?_, ?_⟩
        · -- entries of m persist into the final map
          intro x v hx
          have hxk : x ≠ key := fun h => by rw [h, hm] at hx; cases hx
          rw [vset_ne _ hxk]
          exact hle x v (hmle1 x v hx)
        · -- no new in-progress entries
          intro x hx
          by_cases hxk : x = key
          · subst hxk; rw [vset_self] at hx; cases hx
          · rw [vset_ne _ hxk] at hx
            have := hgr x hx
            rw [vset_ne m hxk] at this
            exact this
        · -- domain only grows
          intro x hx
          by_cases hxk : x = key
          · subst hxk; rw [vset_self] at hx; cases hx
          · rw [vset_ne _ hxk] at hx
            have := hnone x hx
            rwa [vset_ne m hxk] at this
        · -- finished nodes lie on no cycle
          intro x hx
          by_cases hxk : x = key
          · subst hxk
            intro hcyc
            obtain ⟨z, hz, hzx⟩ := (Relation.TransGen.head'_iff).mp hcyc
            obtain ⟨hzne, hzblack⟩ := hallns z hz.2
            exact hbs z hzblack (Relation.TransGen.tail' hzx hz)
          · rw [vset_ne _ hxk] at hx
            exact hbs x hx
      · -- neighbor walk found a cycle
        have hres : dfsVisit D (fuel + 1) key m = (true, m2) := by
          simp only [dfsVisit, if_pos hlen, hdn]
        rw [hres]
        exact ⟨fun _ => hspec.1 rfl, fun h => by cases h⟩
    · -- empty dependency list: finish immediately
      have hdeps : D.deps key = [] := List.length_eq_zero.mp (by omega)
      have hres : dfsVisit D (fuel + 1) key m = (false, vset m key VisitState.VISITED) := by
        simp only [dfsVisit, if_neg hlen]
      rw [hres]
      dsimp only
      refine ⟨(fun h => by cases h), fun _ => ?_⟩
      refine ⟨mapLe_vset hm _, vset_self _ _ _, ?_, ?_, ?_⟩
      · intro x hx
        by_cases hxk : x = key
        · subst hxk; rw [vset_self] at hx; cases hx
        · rwa [vset_ne m hxk] at hx
      · intro x hx
        by_cases hxk : x = key
        · subst hxk; rw [vset_self] at hx; cases hx
        · rwa [vset_ne m hxk] at hx
      · intro x hx
        by_cases hxk : x = key
        · subst hxk
          intro hcyc
          obtain ⟨z, hz, _⟩ := (Relation.TransGen.head'_iff).mp hcyc
          have hz2 := hz.2
          rw [hdeps] at hz2
          cases hz2
        · rw [vset_ne m hxk] at hx
          exact hblack x hx

theorem anyLoop_spec (D : DepGraph) (hC : D.Closed) (F : Nat) (hF : D.keys.length < F) :
    ∀ ks m, (∀ k ∈ ks, k ∈ D.keys) → NoGray m → BlackSafe D m →
      (anyLoop D F ks m = true → D.hasCycle) ∧
      (anyLoop D F ks m = false →
        ∃ m2, BlackSafe D m2 ∧ NoGray m2 ∧ MapLe m m2 ∧
          ∀ k ∈ ks, m2 k = some VisitState.VISITED) := by
  intro ks
  induction ks with
  | nil =>
    intro m _ hng hblack
    refine ⟨fun h => by simp [anyLoop] at h, fun _ => ⟨m, hblack, hng, mapLe_refl m, by simp⟩⟩
  | cons k rest ih =>
    intro m hks hng hblack
    have hkkeys : k ∈ D.keys := hks k (List.mem_cons_self _ _)
    rcases hmk : m k with _ | st
    · -- unvisited: run the DFS
      have hwh : whites D m < F := lt_of_le_of_lt (whites_le_keys D m) hF
      have hspec := visitSpec_dfsVisit D hC F k m hkkeys hmk hwh
        (fun x hx => absurd hx (hng x)) hblack
      rcases hdv : dfsVisit D F k m with ⟨b, m2⟩
      rw [hdv] at hspec
      cases b
      · have hres : anyLoop D F (k :: rest) m = anyLoop D F rest m2 := by
          simp [anyLoop, hmk, hdv]
        obtain ⟨hle, hm2k, hgr, _, hbs⟩ := hspec.2 rfl
        have hng2 : NoGray m2 := fun x hx => hng x (hgr x hx)
        have ihr := ih m2 (fun x hx => hks x (List.mem_cons_of_mem _ hx)) hng2 hbs
        rw [hres]
        refine ⟨ihr.1, fun hf => ?_⟩
        obtain ⟨m3, hbs3, hng3, hle3, hrest⟩ := ihr.2 hf
        exact ⟨m3, hbs3, hng3, mapLe_trans hle hle3, fun x hx => by
          rcases List.mem_cons.mp hx with h | h
          · subst h; exact hle3 x _ hm2k
          · exact hrest x h⟩
      · have hres : anyLoop D F (k :: rest) m = true := by
          simp [anyLoop, hmk, hdv]
        rw [hres]
        exact ⟨fun _ => hspec.1 rfl, fun h => by cases h⟩
    · -- already recorded: must be finished at top level
      have hst : st = VisitState.VISITED := by
        cases st
        · exact absurd hmk (hng k)
        · rfl
      subst hst
      have hres : anyLoop D F (k :: rest) m = anyLoop D F rest m := by
        simp [anyLoop, hmk]
      have ihr := ih m (fun x hx => hks x (List.mem_cons_of_mem _ hx)) hng hblack
      rw [hres]
      refine ⟨ihr.1, fun hf => ?_⟩
      obtain ⟨m3, hbs3, hng3, hle3, hrest⟩ := ihr.2 hf
      exact ⟨m3, hbs3, hng3, hle3, fun x hx => by
        rcases List.mem_cons.mp hx with h | h
        · subst h; exact hle3 x _ hmk
        · exact hrest x h⟩

theorem anyCycilc_iff_hasCycle (D : DepGraph) (hC : D.Closed) :
    anyCycilcDependencies D = true ↔ D.hasCycle := by
  have h := anyLoop_spec D hC (D.keys.length + 1) (Nat.lt_succ_self _) D.keys (fun _ => none)
    (fun _ hk => hk) (fun x h => by cases h) (fun x h => by cases h)
  constructor
  · exact h.1
  · intro hcyc
    rcases hres : anyCycilcDependencies D with _ | _
    · exfalso
      obtain ⟨m2, hbs, _, _, hall⟩ := h.2 hres
      obtain ⟨x, hx⟩ := hcyc
      obtain ⟨z, hz, _⟩ := (Relation.TransGen.head'_iff).mp hx
      exact hbs x (hall x hz.1) hx
    · rfl

/-- C2: for every dependency mapping whose dependency names all occur among
its keys, the simple validation `anyCycilcDependencies` returns `true` if and
only if the directed dependency graph of the mapping contains at least one
cycle (self-loops included). -/
theorem C2_simple_check_iff_cycle (D : DepGraph) (hC : D.Closed) :
    anyCycilcDependencies D = true ↔ D.hasCycle :=
  anyCycilc_iff_hasCycle D hC

/-- Witness for C2 at the one-member self-loop mapping. -/
theorem C2_simple_check_iff_cycle_witness :
    anyCycilcDependencies Dselfa = true ↔ Dselfa.hasCycle :=
  C2_simple_check_iff_cycle Dselfa (by decide)

/-!  The resolution engine: per-call and per-run guarantees. -/

theorem exists_rank (D : DepGraph) (hA : ¬ D.hasCycle) :
    ∃ rank : String → Nat, (∀ x y, D.Edge x y → rank y < rank x) ∧
      ∀ x, rank x ≤ D.keys.length := by
  classical
  refine ⟨fun x => (D.keys.toFinset.filter (fun y => Relation.ReflTransGen D.Edge x y)).card,
    ?_, ?_⟩
  · intro x y hxy
    refine Finset.card_lt_card ?_
    constructor
    · intro z hz
      simp only [Finset.mem_filter] at hz ⊢
      exact ⟨hz.1, Relation.ReflTransGen.trans (Relation.ReflTransGen.single hxy) hz.2⟩
    · intro hsub
      have hx : x ∈ D.keys.toFinset.filter (fun z => Relation.ReflTransGen D.Edge x z) := by
        simp only [Finset.mem_filter, List.mem_toFinset]
        exact ⟨hxy.1, Relation.ReflTransGen.refl⟩
      have hx2 := hsub hx
      simp only [Finset.mem_filter] at hx2
      exact hA ⟨x, Relation.TransGen.head' hxy hx2.2⟩
  · intro x
    exact le_trans (Finset.card_filter_le _ _) (List.toFinset_card_le D.keys)

theorem getMember_hit {α ε : Type} (D : DepGraph) (P : Providers α ε) (fuel : Nat)
    (m : String) (s : RState α) (v : α) (hv : s.cache m = some (some v)) :
    getMember D P (fuel + 1) m s =
      (Outcome.ok (some v),
       { s with trace := (s.trace ++ [m ++ " - get"]) ++ [m ++ " - already constructed"] }) := by
  simp only [getMember, hv]

theorem getMember_miss {α ε : Type} (D : DepGraph) (P : Providers α ε) (fuel : Nat)
    (m : String) (s : RState α) (hmiss : ∀ v, s.cache m ≠ some (some v)) :
    getMember D P (fuel + 1) m s =
      (match resolveDeps (getMember D P fuel) (D.deps m)
          { s with trace := (s.trace ++ [m ++ " - get"]) ++ [m ++ " - constructing"] } with
       | (DepsRes.ok es, s1) =>
         match P m es with
         | Except.error e => (Outcome.exn e, { s1 with calls := bump s1.calls m })
         | Except.ok v =>
           (Outcome.ok v,
            { s1 with calls := bump s1.calls m, cache := cset s1.cache m v,
                      trace := s1.trace ++ [m ++ " - constructed"] })
       | (DepsRes.exn e, s1) => (Outcome.exn e, s1)
       | (DepsRes.fuelOut, s1) => (Outcome.fuelOut, s1)) := by
  rcases hc : s.cache m with _ | ov
  · simp only [getMember, hc]
  · rcases ov with _ | w
    · simp only [getMember, hc]
    · exact absurd hc (hmiss w)

theorem resolveDeps_trace {α ε : Type} (recv : String → RState α → Outcome α ε × RState α)
    (hrecv : ∀ m s, ∃ t, (recv m s).2.trace = s.trace ++ t) :
    ∀ ds s, ∃ t, (resolveDeps recv ds s).2.trace = s.trace ++ t := by
  intro ds
  induction ds with
  | nil => intro s; exact ⟨[], by simp [resolveDeps]⟩
  | cons d rest ih =>
    intro s
    rcases hr : recv d s with ⟨r, s1⟩
    obtain ⟨t1, ht1⟩ := hrecv d s
    rw [hr] at ht1
    cases r with
    | ok v =>
      rcases hrd : resolveDeps recv rest s1 with ⟨res, s2⟩
      obtain ⟨t2, ht2⟩ := ih s1
      rw [hrd] at ht2
      cases res with
      | ok es =>
        refine ⟨t1 ++ t2, ?_⟩
        simp only [resolveDeps, hr, hrd]
        rw [ht2, ht1, List.append_assoc]
      | exn e =>
        refine ⟨t1 ++ t2, ?_⟩
        simp only [resolveDeps, hr, hrd]
        rw [ht2, ht1, List.append_assoc]
      | fuelOut =>
        refine ⟨t1 ++ t2, ?_⟩
        simp only [resolveDeps, hr, hrd]
        rw [ht2, ht1, List.append_assoc]
    | exn e =>
      refine ⟨t1, ?_⟩
      simp only [resolveDeps, hr]
      exact ht1
    | fuelOut =>
      refine ⟨t1, ?_⟩
      simp only [resolveDeps, hr]
      exact ht1

theorem getMember_trace {α ε : Type} (D : DepGraph) (P : Providers α ε) :
    ∀ fuel m s, ∃ t, ((getMember D P fuel m s).2).trace = s.trace ++ t := by
  intro fuel
  induction fuel with
  | zero => intro m s; exact ⟨[], by simp [getMember]⟩
  | succ fuel ih =>
    intro m s
    rcases hc : s.cache m with _ | ov
    · -- miss with no entry
      rw [getMember_miss D P fuel m s (fun v h => by rw [hc] at h; cases h)]
      rcases hrd : resolveDeps (getMember D P fuel) (D.deps m)
          { s with trace := (s.trace ++ [m ++ " - get"]) ++ [m ++ " - constructing"] } with ⟨res, s1⟩
      obtain ⟨t1, ht1⟩ := resolveDeps_trace (getMember D P fuel) (ih) (D.deps m)
        { s with trace := (s.trace ++ [m ++ " - get"]) ++ [m ++ " - constructing"] }
      rw [hrd] at ht1
      dsimp only at ht1
      cases res with
      | ok es =>
        rcases hp : P m es with e | v
        · refine ⟨[m ++ " - get"] ++ [m ++ " - constructing"] ++ t1, ?_⟩
          simp [hp, ht1, List.append_assoc]
        · refine ⟨[m ++ " - get"] ++ [m ++ " - constructing"] ++ t1 ++ [m ++ " - constructed"], ?_⟩
          simp [hp, ht1, List.append_assoc]
      | exn e =>
        refine ⟨[m ++ " - get"] ++ [m ++ " - constructing"] ++ t1, ?_⟩
        dsimp only
        rw [ht1]
        simp [List.append_assoc]
      | fuelOut =>
        refine ⟨[m ++ " - get"] ++ [m ++ " - constructing"] ++ t1, ?_⟩
        dsimp only
        rw [ht1]
        simp [List.append_assoc]
    · rcases ov with _ | w
      · -- stored nullish: same miss path
        rw [getMember_miss D P fuel m s (fun v h => by rw [hc] at h; cases h)]
        rcases hrd : resolveDeps (getMember D P fuel) (D.deps m)
            { s with trace := (s.trace ++ [m ++ " - get"]) ++ [m ++ " - constructing"] } with ⟨res, s1⟩
        obtain ⟨t1, ht1⟩ := resolveDeps_trace (getMember D P fuel) (ih) (D.deps m)
          { s with trace := (s.trace ++ [m ++ " - get"]) ++ [m ++ " - constructing"] }
        rw [hrd] at ht1
        dsimp only at ht1
        cases res with
        | ok es =>
          rcases hp : P m es with e | v
          · refine ⟨[m ++ " - get"] ++ [m ++ " - constructing"] ++ t1, ?_⟩
            simp [hp, ht1, List.append_assoc]
          · refine ⟨[m ++ " - get"] ++ [m ++ " - constructing"] ++ t1 ++ [m ++ " - constructed"], ?_⟩
            simp [hp, ht1, List.append_assoc]
        | exn e =>
          refine ⟨[m ++ " - get"] ++ [m ++ " - constructing"] ++ t1, ?_⟩
          dsimp only
          rw [ht1]
          simp [List.append_assoc]
        | fuelOut =>
          refine ⟨[m ++ " - get"] ++ [m ++ " - constructing"] ++ t1, ?_⟩
          dsimp only
          rw [ht1]
          simp [List.append_assoc]
      · rw [getMember_hit D P fuel m s w hc]
        exact ⟨[m ++ " - get"] ++ [m ++ " - already constructed"], by simp [List.append_assoc]⟩

theorem resolveDeps_bspec {α ε : Type} (D : DepGraph) (rank : String → Nat) (F : Nat)
    (recv : String → RState α → Outcome α ε × RState α) (hrecv : BSpec D rank F recv)
    (R : Nat) :
    ∀ ds s, (∀ d ∈ ds, d ∈ D.keys ∧ rank d < F ∧ rank d < R) →
      (resolveDeps recv ds s).1 ≠ DepsRes.fuelOut ∧
      (∀ k v, s.cache k = some (some v) → (resolveDeps recv ds s).2.cache k = some (some v)) ∧
      (∀ k, (resolveDeps recv ds s).2.cache k ≠ s.cache k →
        ∃ v, (resolveDeps recv ds s).2.cache k = some v) ∧
      (∀ k, R ≤ rank k → (resolveDeps recv ds s).2.cache k = s.cache k ∧
        (resolveDeps recv ds s).2.calls k = s.calls k) ∧
      (∀ es, (resolveDeps recv ds s).1 = DepsRes.ok es → es.map Prod.fst = ds) := by
  intro ds
  induction ds with
  | nil =>
    intro s _
    refine ⟨(fun h => by cases h), fun k v hv => hv, fun k hk => absurd rfl hk,
      fun k _ => ⟨rfl, rfl⟩, ?_⟩
    intro es hes
    cases hes
    rfl
  | cons d rest ih =>
    intro s hds
    obtain ⟨hdk, hdF, hdR⟩ := hds d (List.mem_cons_self _ _)
    have hrest : ∀ x ∈ rest, x ∈ D.keys ∧ rank x < F ∧ rank x < R :=
      fun x hx => hds x (List.mem_cons_of_mem _ hx)
    have hrec := hrecv d s hdk hdF
    rcases hr : recv d s with ⟨r, s1⟩
    rw [hr] at hrec
    obtain ⟨hrf, hrmono, hrwr, hrexn, hrok, hrframe⟩ := hrec
    cases r with
    | ok v =>
      have hihr := ih s1 hrest
      rcases hrd : resolveDeps recv rest s1 with ⟨res, s2⟩
      rw [hrd] at hihr
      dsimp only at hihr
      obtain ⟨hif, himono, hiwr, hiframe, himap⟩ := hihr
      have hframe1 : ∀ k, R ≤ rank k → s1.cache k = s.cache k ∧ s1.calls k = s.calls k := by
        intro k hk
        refine hrframe k ?_ ?_
        · intro hkd; rw [hkd] at hk; omega
        · omega
      cases res with
      | ok es =>
        have hres : resolveDeps recv (d :: rest) s = (DepsRes.ok ((d, v) :: es), s2) := by
          simp only [resolveDeps, hr, hrd]
        rw [hres]
        refine ⟨(fun h => by cases h), ?_, ?_, ?_, ?_⟩
        · exact fun k w hw => himono k w (hrmono k w hw)
        · intro k hk
          by_cases h2 : s2.cache k = s1.cache k
          · rw [h2] at hk ⊢
            exact hrwr k hk
          · exact hiwr k h2
        · intro k hk
          obtain ⟨hic, hil⟩ := hiframe k hk
          obtain ⟨hc1, hl1⟩ := hframe1 k hk
          exact ⟨by rw [hic, hc1], by rw [hil, hl1]⟩
        · intro es2 hes2
          cases hes2
          simp only [List.map_cons]
          rw [himap es rfl]
      | exn e =>
        have hres : resolveDeps recv (d :: rest) s = (DepsRes.exn e, s2) := by
          simp only [resolveDeps, hr, hrd]
        rw [hres]
        refine ⟨(fun h => by cases h), ?_, ?_, ?_, ?_⟩
        · exact fun k w hw => himono k w (hrmono k w hw)
        · intro k hk
          by_cases h2 : s2.cache k = s1.cache k
          · rw [h2] at hk ⊢
            exact hrwr k hk
          · exact hiwr k h2
        · intro k hk
          obtain ⟨hic, hil⟩ := hiframe k hk
          obtain ⟨hc1, hl1⟩ := hframe1 k hk
          exact ⟨by rw [hic, hc1], by rw [hil, hl1]⟩
        · intro es2 hes2
          cases hes2
      | fuelOut => exact absurd rfl hif
    | exn e =>
      have hres : resolveDeps recv (d :: rest) s = (DepsRes.exn e, s1) := by
        simp only [resolveDeps, hr]
      rw [hres]
      refine ⟨(fun h => by cases h), hrmono, hrwr, ?_, ?_⟩
      · intro k hk
        refine hrframe k ?_ ?_
        · intro hkd; rw [hkd] at hk; omega
        · omega
      · intro es2 hes2
        cases hes2
    | fuelOut => exact absurd rfl hrf

theorem getMember_bspec_miss {α ε : Type} (D : DepGraph) (P : Providers α ε) (hC : D.Closed)
    (rank : String → Nat) (hrank : ∀ x y, D.Edge x y → rank y < rank x) (fuel : Nat)
    (ih : BSpec D rank fuel (getMember D P fuel)) (m : String) (s : RState α)
    (hm : m ∈ D.keys) (hr : rank m < fuel + 1)
    (hmiss : ∀ v, s.cache m ≠ some (some v)) :
    BConj rank (getMember D P (fuel + 1) m s) m s := by
  rw [getMember_miss D P fuel m s hmiss]
  have hconds : ∀ d ∈ D.deps m, d ∈ D.keys ∧ rank d < fuel ∧ rank d < rank m := by
    intro d hd
    have hlt := hrank m d ⟨hm, hd⟩
    exact ⟨hC m hm d hd, by omega, hlt⟩
  have hrb := resolveDeps_bspec D rank fuel (getMember D P fuel) ih (rank m) (D.deps m)
    { s with trace := (s.trace ++ [m ++ " - get"]) ++ [m ++ " - constructing"] } hconds
  rcases hrd : resolveDeps (getMember D P fuel) (D.deps m)
      { s with trace := (s.trace ++ [m ++ " - get"]) ++ [m ++ " - constructing"] } with ⟨res, s1⟩
  rw [hrd] at hrb
  dsimp only at hrb
  obtain ⟨hf, hmono, hwr, hframe, _⟩ := hrb
  have hcm : s1.cache m = s.cache m := (hframe m (le_refl _)).1
  have hlm : s1.calls m = s.calls m := (hframe m (le_refl _)).2
  cases res with
  | ok es =>
    rcases hp : P m es with e | v
    · -- provider threw: no cache write for m
      have hres2 :
          (match (DepsRes.ok es, s1) with
           | (DepsRes.ok es, s1) =>
             match P m es with
             | Except.error e => (Outcome.exn e, { s1 with calls := bump s1.calls m })
             | Except.ok v =>
               (Outcome.ok v,
                { s1 with calls := bump s1.calls m, cache := cset s1.cache m v,
                          trace := s1.trace ++ [m ++ " - constructed"] })
           | (DepsRes.exn e, s1) => (Outcome.exn e, s1)
           | (DepsRes.fuelOut, s1) => (Outcome.fuelOut, s1) : Outcome α ε × RState α) =
          (Outcome.exn e, { s1 with calls := bump s1.calls m }) := by
        simp only [hp]
      rw [hres2]
      refine ⟨(fun h => by cases h), hmono, hwr, fun _ _ => hcm, (fun v hv => by cases hv), ?_⟩
      intro k hk hrk
      obtain ⟨hkc, hkl⟩ := hframe k hrk
      refine ⟨hkc, ?_⟩
      dsimp only
      rw [bump]
      simp only [if_neg hk]
      exact hkl
    · -- provider succeeded: value cached for m
      have hres2 :
          (match (DepsRes.ok es, s1) with
           | (DepsRes.ok es, s1) =>
             match P m es with
             | Except.error e => (Outcome.exn e, { s1 with calls := bump s1.calls m })
             | Except.ok v =>
               (Outcome.ok v,
                { s1 with calls := bump s1.calls m, cache := cset s1.cache m v,
                          trace := s1.trace ++ [m ++ " - constructed"] })
           | (DepsRes.exn e, s1) => (Outcome.exn e, s1)
           | (DepsRes.fuelOut, s1) => (Outcome.fuelOut, s1) : Outcome α ε × RState α) =
          (Outcome.ok v,
           { s1 with calls := bump s1.calls m, cache := cset s1.cache m v,
                     trace := s1.trace ++ [m ++ " - constructed"] }) := by
        simp only [hp]
      rw [hres2]
      refine ⟨(fun h => by cases h), ?_, ?_, (fun e he => by cases he), ?_, ?_⟩
      · intro k w hw
        dsimp only
        have hkm : k ≠ m := by
          intro hkm
          rw [hkm] at hw
          exact hmiss w hw
        rw [cset]
        simp only [if_neg hkm]
        exact hmono k w hw
      · intro k hk
        dsimp only at hk ⊢
        by_cases hkm : k = m
        · subst hkm
          refine ⟨v, ?_⟩
          rw [cset]
          simp
        · rw [cset] at hk ⊢
          simp only [if_neg hkm] at hk ⊢
          exact hwr k hk
      · intro w hw
        cases hw
        dsimp only
        rw [cset]
        simp
      · intro k hk hrk
        obtain ⟨hkc, hkl⟩ := hframe k hrk
        dsimp only
        rw [cset, bump]
        simp only [if_neg hk]
        exact ⟨hkc, hkl⟩
  | exn e =>
    refine ⟨(fun h => by cases h), hmono, hwr, fun _ _ => hcm, (fun v hv => by cases hv), ?_⟩
    intro k hk hrk
    exact hframe k hrk
  | fuelOut => exact absurd rfl hf

theorem getMember_bspec {α ε : Type} (D : DepGraph) (P : Providers α ε) (hC : D.Closed)
    (rank : String → Nat) (hrank : ∀ x y, D.Edge x y → rank y < rank x) :
    ∀ F, BSpec D rank F (getMember D P F) := by
  intro F
  induction F with
  | zero =>
    intro m s _ hr
    exact absurd hr (Nat.not_lt_zero _)
  | succ fuel ih =>
    intro m s hm hr
    rcases hc : s.cache m with _ | ov
    case none =>
      exact getMember_bspec_miss D P hC rank hrank fuel ih m s hm hr
        (fun v h => by rw [hc] at h; cases h)
    case some =>
      rcases ov with _ | w
      case none =>
        exact getMember_bspec_miss D P hC rank hrank fuel ih m s hm hr
          (fun v h => by rw [hc] at h; cases h)
      case some =>
        rw [getMember_hit D P fuel m s w hc]
        refine ⟨(fun h => by cases h), fun k v hv => hv, fun k hk => absurd rfl hk, ?_, ?_, ?_⟩
        · intro e he; cases he
        · intro v hv
          cases hv
          exact hc
        · exact fun k _ _ => ⟨rfl, rfl⟩

theorem resolveDeps_good {α ε : Type} (D : DepGraph) (rank : String → Nat) (F : Nat)
    (recv : String → RState α → Outcome α ε × RState α) (hrecv : ASpec D rank F recv)
    (R : Nat) :
    ∀ ds s, (∀ d ∈ ds, d ∈ D.keys ∧ rank d < F ∧ rank d < R) → CCInv s →
      ∃ es s1, resolveDeps recv ds s = (DepsRes.ok es, s1) ∧
        es.map Prod.fst = ds ∧
        (∀ p ∈ es, ∃ w, p.2 = some w ∧ s1.cache p.1 = some (some w)) ∧
        CCInv s1 ∧
        (∀ k w, s.cache k = some (some w) → s1.cache k = some (some w)) ∧
        (∀ k, R ≤ rank k → s1.cache k = s.cache k ∧ s1.calls k = s.calls k) := by
  intro ds
  induction ds with
  | nil =>
    intro s _ hinv
    exact ⟨[], s, rfl, rfl, (fun p hp => by cases hp), hinv, fun k w hw => hw,
      fun k _ => ⟨rfl, rfl⟩⟩
  | cons d rest ih =>
    intro s hds hinv
    obtain ⟨hdk, hdF, hdR⟩ := hds d (List.mem_cons_self _ _)
    obtain ⟨v, sA, heq, hcache, hinvA, hmonoA, hframeA, _⟩ := hrecv d s hdk hdF hinv
    obtain ⟨es, s1, hres, hmap, hentr, hinv1, hmono1, hframe1⟩ :=
      ih sA (fun x hx => hds x (List.mem_cons_of_mem _ hx)) hinvA
    refine ⟨(d, some v) :: es, s1, ?_, ?_, ?_, hinv1, ?_, ?_⟩
    · simp only [resolveDeps, heq, hres]
    · simp only [List.map_cons, hmap]
    · intro p hp
      rcases List.mem_cons.mp hp with h | h
      · subst h
        exact ⟨v, rfl, hmono1 d v hcache⟩
      · exact hentr p h
    · exact fun k w hw => hmono1 k w (hmonoA k w hw)
    · intro k hk
      have hkd : k ≠ d := by
        intro hkd
        rw [hkd] at hk
        omega
      obtain ⟨hc1, hl1⟩ := hframe1 k hk
      obtain ⟨hcA, hlA⟩ := hframeA k hkd (by omega)
      exact ⟨by rw [hc1, hcA], by rw [hl1, hlA]⟩

theorem getMember_good {α ε : Type} (D : DepGraph) (P : Providers α ε) (hC : D.Closed)
    (rank : String → Nat) (hrank : ∀ x y, D.Edge x y → rank y < rank x) (hP : GoodP P) :
    ∀ F, ASpec D rank F (getMember D P F) := by
  intro F
  induction F with
  | zero =>
    intro m s _ hr
    exact absurd hr (Nat.not_lt_zero _)
  | succ fuel ih =>
    intro m s hm hr hinv
    rcases hc : s.cache m with _ | ov
    case some =>
      rcases ov with _ | w
      case none => exact absurd hc ((hinv m).2.2)
      case some =>
        -- cache hit: only the log changes
        refine ⟨w,
          ({ s with
              trace := (s.trace ++ [m ++ " - get"]) ++
                [m ++ " - already constructed"] } : RState α),
          getMember_hit D P fuel m s w hc, hc, ?_,
          fun k u hu => hu, fun k _ _ => ⟨rfl, rfl⟩, ?_⟩
        · exact hinv
        · intro w2 hw2
          rw [hc] at hw2
          cases hw2
          exact ⟨rfl, rfl, rfl⟩
    case none =>
      -- miss: construct after resolving dependencies
      rw [getMember_miss D P fuel m s (fun v h => by rw [hc] at h; cases h)]
      have hconds : ∀ d ∈ D.deps m, d ∈ D.keys ∧ rank d < fuel ∧ rank d < rank m := by
        intro d hd
        have hlt := hrank m d ⟨hm, hd⟩
        exact ⟨hC m hm d hd, by omega, hlt⟩
      obtain ⟨es, s1, hres, hmap, hentr, hinv1, hmono1, hframe1⟩ :=
        resolveDeps_good D rank fuel (getMember D P fuel) ih (rank m) (D.deps m)
          { s with trace := (s.trace ++ [m ++ " - get"]) ++ [m ++ " - constructing"] } hconds hinv
      obtain ⟨v, hp⟩ := hP m es
      have hcm1 : s1.cache m = none := by
        have h := (hframe1 m (le_refl _)).1
        dsimp only at h
        rw [h, hc]
      have hlm1 : s1.calls m = s.calls m := by
        have h := (hframe1 m (le_refl _)).2
        dsimp only at h
        exact h
      have hlm0 : s.calls m = 0 := (hinv m).1 hc
      refine ⟨v,
        ({ s1 with
            calls := bump s1.calls m,
            cache := cset s1.cache m (some v),
            trace := s1.trace ++ [m ++ " - constructed"] } : RState α),
        ?_, ?_, ?_, ?_, ?_, ?_⟩
      · rw [hres]
        simp only [hp]
      · dsimp only
        rw [cset]
        simp
      · -- the invariant is preserved
        intro k
        by_cases hkm : k = m
        · subst hkm
          dsimp only
          rw [cset, bump]
          simp only [if_pos rfl]
          refine ⟨(fun h => by cases h), fun w hw => by simp [hlm1, hlm0], fun h => by cases h⟩
        · dsimp only
          rw [cset, bump]
          simp only [if_neg hkm]
          exact hinv1 k
      · intro k w hw
        dsimp only
        have hkm : k ≠ m := fun h => by rw [h, hc] at hw; cases hw
        rw [cset]
        simp only [if_neg hkm]
        exact hmono1 k w hw
      · intro k hk hrk
        obtain ⟨hc1, hl1⟩ := hframe1 k hrk
        dsimp only
        rw [cset, bump]
        simp only [if_neg hk]
        exact ⟨hc1, hl1⟩
      · intro w hw
        rw [hc] at hw
        cases hw

theorem ccinv_init {α : Type} : CCInv (RState.init : RState α) := by
  intro k
  exact ⟨fun _ => rfl, (fun w hw => by cases hw), (fun h => by cases h)⟩

theorem not_hasCycle_of_check_false (D : DepGraph) (hC : D.Closed)
    (h : anyCycilcDependencies D = false) : ¬ D.hasCycle := by
  intro hc
  have h2 := (anyCycilc_iff_hasCycle D hC).mpr hc
  rw [h] at h2
  cases h2

theorem goodP_Ptri : GoodP Ptri := by
  intro k es
  unfold Ptri
  split_ifs <;> exact ⟨_, rfl⟩

theorem runAccesses_good {α ε : Type} (D : DepGraph) (P : Providers α ε) (hC : D.Closed)
    (rank : String → Nat) (hrank : ∀ x y, D.Edge x y → rank y < rank x)
    (hbound : ∀ x, rank x ≤ D.keys.length) (hP : GoodP P) :
    ∀ L s, (∀ m ∈ L, m ∈ D.keys) → CCInv s →
      CCInv (runAccesses D P L s).2 ∧
      (∀ k w, s.cache k = some (some w) → (runAccesses D P L s).2.cache k = some (some w)) ∧
      (runAccesses D P L s).1.length = L.length ∧
      (∀ i (h1 : i < L.length) (h2 : i < (runAccesses D P L s).1.length),
        ∃ v, (runAccesses D P L s).1.get ⟨i, h2⟩ = Outcome.ok (some v) ∧
          (runAccesses D P L s).2.cache (L.get ⟨i, h1⟩) = some (some v)) := by
  intro L
  induction L with
  | nil =>
    intro s _ hinv
    refine ⟨hinv, fun k w hw => hw, rfl, ?_⟩
    intro i h1 _
    exact absurd h1 (Nat.not_lt_zero _)
  | cons m rest ih =>
    intro s hL hinv
    have hm : m ∈ D.keys := hL m (List.mem_cons_self _ _)
    have hrm : rank m < injectorFuel D := by
      have := hbound m
      unfold injectorFuel
      omega
    obtain ⟨v, sA, heq, hcache, hinvA, hmonoA, _, _⟩ :=
      getMember_good D P hC rank hrank hP (injectorFuel D) m s hm hrm hinv
    have hrest := ih sA (fun x hx => hL x (List.mem_cons_of_mem _ hx)) hinvA
    rcases hrun : runAccesses D P rest sA with ⟨outs, s2⟩
    rw [hrun] at hrest
    obtain ⟨hinv2, hmono2, hlen2, hidx2⟩ := hrest
    have hres : runAccesses D P (m :: rest) s = (Outcome.ok (some v) :: outs, s2) := by
      show (match access D P m s with
            | (r, s1) =>
              match runAccesses D P rest s1 with
              | (rs, s2) => (r :: rs, s2)) = _
      rw [show access D P m s = (Outcome.ok (some v), sA) from heq]
      dsimp only
      rw [hrun]
    rw [hres]
    refine ⟨hinv2, ?_, ?_, ?_⟩
    · exact fun k w hw => hmono2 k w (hmonoA k w hw)
    · simp [hlen2]
    · intro i h1 h2
      cases i with
      | zero =>
        refine ⟨v, by simp, ?_⟩
        simp only [List.get_cons_zero]
        exact hmono2 m v hcache
      | succ i =>
        have h1r : i < rest.length := by simpa using h1
        have h2r : i < outs.length := by simpa using h2
        obtain ⟨w, hw1, hw2⟩ := hidx2 i h1r h2r
        exact ⟨w, by simpa using hw1, by simpa using hw2⟩

theorem resolveDeps_suc {α ε : Type} (D : DepGraph) (rank : String → Nat) (F : Nat)
    (recv : String → RState α → Outcome α ε × RState α)
    (hrecv : ∀ m s, m ∈ D.keys → rank m < F → ∃ v s2, recv m s = (Outcome.ok v, s2)) :
    ∀ ds s, (∀ d ∈ ds, d ∈ D.keys ∧ rank d < F) →
      ∃ es s1, resolveDeps recv ds s = (DepsRes.ok es, s1) ∧ es.map Prod.fst = ds := by
  intro ds
  induction ds with
  | nil => intro s _; exact ⟨[], s, rfl, rfl⟩
  | cons d rest ih =>
    intro s hds
    obtain ⟨hdk, hdF⟩ := hds d (List.mem_cons_self _ _)
    obtain ⟨v, sA, heq⟩ := hrecv d s hdk hdF
    obtain ⟨es, s1, hres, hmap⟩ := ih sA (fun x hx => hds x (List.mem_cons_of_mem _ hx))
    refine ⟨(d, v) :: es, s1, ?_, ?_⟩
    · simp only [resolveDeps, heq, hres]
    · simp only [List.map_cons, hmap]

theorem getMember_suc {α ε : Type} (D : DepGraph) (P : Providers α ε) (hC : D.Closed)
    (rank : String → Nat) (hrank : ∀ x y, D.Edge x y → rank y < rank x)
    (hP : ∀ k es, ∃ v, P k es = Except.ok v) :
    ∀ F m s, m ∈ D.keys → rank m < F →
      ∃ v s2, getMember D P F m s = (Outcome.ok v, s2) := by
  intro F
  induction F with
  | zero =>
    intro m s _ hr
    exact absurd hr (Nat.not_lt_zero _)
  | succ fuel ih =>
    intro m s hm hr
    rcases hc : s.cache m with _ | ov
    case some =>
      rcases ov with _ | w
      case some =>
        exact ⟨some w, _, getMember_hit D P fuel m s w hc⟩
      case none =>
        rw [getMember_miss D P fuel m s (fun v h => by rw [hc] at h; cases h)]
        obtain ⟨es, s1, hres, _⟩ := resolveDeps_suc D rank fuel (getMember D P fuel)
          (fun m2 s2 hm2 hr2 => ih m2 s2 hm2 hr2) (D.deps m)
          { s with trace := (s.trace ++ [m ++ " - get"]) ++ [m ++ " - constructing"] }
          (fun d hd => ⟨hC m hm d hd, by have := hrank m d ⟨hm, hd⟩; omega⟩)
        obtain ⟨v, hp⟩ := hP m es
        rw [hres]
        refine ⟨v,
          ({ s1 with
              calls := bump s1.calls m,
              cache := cset s1.cache m v,
              trace := s1.trace ++ [m ++ " - constructed"] } : RState α), ?_⟩
        simp only [hp]
    case none =>
      rw [getMember_miss D P fuel m s (fun v h => by rw [hc] at h; cases h)]
      obtain ⟨es, s1, hres, _⟩ := resolveDeps_suc D rank fuel (getMember D P fuel)
        (fun m2 s2 hm2 hr2 => ih m2 s2 hm2 hr2) (D.deps m)
        { s with trace := (s.trace ++ [m ++ " - get"]) ++ [m ++ " - constructing"] }
        (fun d hd => ⟨hC m hm d hd, by have := hrank m d ⟨hm, hd⟩; omega⟩)
      obtain ⟨v, hp⟩ := hP m es
      rw [hres]
      refine ⟨v,
        ({ s1 with
            calls := bump s1.calls m,
            cache := cset s1.cache m v,
            trace := s1.trace ++ [m ++ " - constructed"] } : RState α), ?_⟩
      simp only [hp]

/-- C3 (amended): for every acyclic closed mapping and every provider table
whose providers always construct a proper (non-null, non-undefined) value,
any sequence of accessor calls invokes each member's provider at most once
(exactly once for each accessed member), and accesses of the same member all
return the identical value. -/
theorem C3_amended_memoization {α ε : Type} (D : DepGraph) (P : Providers α ε)
    (hC : D.Closed) (hA : ¬ D.hasCycle) (hP : GoodP P) (L : List String)
    (hL : ∀ m ∈ L, m ∈ D.keys) :
    (∀ k, (runAccesses D P L RState.init).2.calls k ≤ 1) ∧
    (∀ m ∈ L, (runAccesses D P L RState.init).2.calls m = 1) ∧
    (∀ k, (runAccesses D P L RState.init).2.calls k = 1 ↔
      ∃ w, (runAccesses D P L RState.init).2.cache k = some (some w)) ∧
    (runAccesses D P L RState.init).1.length = L.length ∧
    (∀ o ∈ (runAccesses D P L RState.init).1, ∃ v, o = Outcome.ok (some v)) ∧
    (∀ i j (hi : i < L.length) (hj : j < L.length)
      (hi2 : i < (runAccesses D P L RState.init).1.length)
      (hj2 : j < (runAccesses D P L RState.init).1.length),
      L.get ⟨i, hi⟩ = L.get ⟨j, hj⟩ →
      (runAccesses D P L RState.init).1.get ⟨i, hi2⟩ =
        (runAccesses D P L RState.init).1.get ⟨j, hj2⟩) := by
  obtain ⟨rank, hrank, hbound⟩ := exists_rank D hA
  obtain ⟨hinv, hmono, hlen, hidx⟩ :=
    runAccesses_good D P hC rank hrank hbound hP L RState.init hL ccinv_init
  have hcalls1 : ∀ k, (runAccesses D P L RState.init).2.calls k ≤ 1 := by
    intro k
    obtain ⟨hnone, hsome, hnn⟩ := hinv k
    rcases hck : (runAccesses D P L RState.init).2.cache k with _ | ov
    · rw [hnone hck]
      omega
    · rcases ov with _ | w
      · exact absurd hck hnn
      · rw [hsome w hck]
  refine ⟨hcalls1, ?_, ?_, hlen, ?_, ?_⟩
  · intro m hm
    obtain ⟨n, hn⟩ := List.get_of_mem hm
    have h2 : (n : Nat) < (runAccesses D P L RState.init).1.length := by
      rw [hlen]; exact n.isLt
    obtain ⟨v, _, hcv⟩ := hidx n.1 n.isLt h2
    have hg : L.get ⟨n.1, n.isLt⟩ = m := hn
    rw [hg] at hcv
    exact (hinv m).2.1 v hcv
  · intro k
    constructor
    · intro hk1
      obtain ⟨hnone, _, hnn⟩ := hinv k
      rcases hck : (runAccesses D P L RState.init).2.cache k with _ | ov
      · rw [hnone hck] at hk1; cases hk1
      · rcases ov with _ | w
        · exact absurd hck hnn
        · exact ⟨w, rfl⟩
    · intro ⟨w, hw⟩
      exact (hinv k).2.1 w hw
  · intro o ho
    obtain ⟨n, hn⟩ := List.get_of_mem ho
    have h1 : (n : Nat) < L.length := by rw [← hlen]; exact n.isLt
    obtain ⟨v, ho2, _⟩ := hidx n.1 h1 n.isLt
    have hg : (runAccesses D P L RState.init).1.get ⟨n.1, n.isLt⟩ = o := hn
    exact ⟨v, hg.symm.trans ho2⟩
  · intro i j hi hj hi2 hj2 hij
    obtain ⟨vi, hoi, hci⟩ := hidx i hi hi2
    obtain ⟨vj, hoj, hcj⟩ := hidx j hj hj2
    rw [hij] at hci
    have hv : vj = vi := Option.some.inj (Option.some.inj (hcj.symm.trans hci))
    rw [hoi, hoj, hv]

/-- Witness for C3's amended theorem: the Pythagorean-triple module accessed
twice at `digest` runs `digest`'s provider exactly once. -/
theorem C3_amended_memoization_witness :
    (runAccesses Dtri Ptri ["digest", "digest"] RState.init).2.calls "digest" = 1 :=
  (C3_amended_memoization Dtri Ptri (by decide)
    (not_hasCycle_of_check_false Dtri (by decide) (by decide)) goodP_Ptri
    ["digest", "digest"] (by decide)).2.1 "digest" (by decide)

/-- C7: on a cache miss the accessor resolves the declared dependencies in
their declared order through the other accessors, every dependency is fully
constructed and cached before the member's provider executes, and the
provider receives exactly those entries. -/
theorem C7_deps_resolved_before_provider {α ε : Type} (D : DepGraph) (P : Providers α ε)
    (hC : D.Closed) (hA : ¬ D.hasCycle) (hP : GoodP P) (y : String) (s : RState α)
    (hy : y ∈ D.keys) (hmiss : ∀ v, s.cache y ≠ some (some v)) (hinv : CCInv s) :
    ∃ es s1 v,
      resolveDeps (getMember D P D.keys.length) (D.deps y)
        { s with trace := (s.trace ++ [y ++ " - get"]) ++ [y ++ " - constructing"] } =
        (DepsRes.ok es, s1) ∧
      es.map Prod.fst = D.deps y ∧
      (∀ p ∈ es, ∃ w, p.2 = some w ∧ s1.cache p.1 = some (some w)) ∧
      P y es = Except.ok (some v) ∧
      access D P y s =
        (Outcome.ok (some v),
         { s1 with
             calls := bump s1.calls y,
             cache := cset s1.cache y (some v),
             trace := s1.trace ++ [y ++ " - constructed"] }) := by
  obtain ⟨rank, hrank, hbound⟩ := exists_rank D hA
  have hconds : ∀ d ∈ D.deps y, d ∈ D.keys ∧ rank d < D.keys.length ∧ rank d < rank y := by
    intro d hd
    have hlt := hrank y d ⟨hy, hd⟩
    have hb := hbound y
    exact ⟨hC y hy d hd, by omega, hlt⟩
  obtain ⟨es, s1, hres, hmap, hentr, _, _, _⟩ :=
    resolveDeps_good D rank D.keys.length (getMember D P D.keys.length)
      (getMember_good D P hC rank hrank hP D.keys.length) (rank y) (D.deps y)
      { s with trace := (s.trace ++ [y ++ " - get"]) ++ [y ++ " - constructing"] } hconds hinv
  obtain ⟨v, hp⟩ := hP y es
  refine ⟨es, s1, v, hres, hmap, hentr, hp, ?_⟩
  show getMember D P (D.keys.length + 1) y s = _
  rw [getMember_miss D P D.keys.length y s hmiss, hres]
  simp only [hp]

/-- Witness for C7 at the Pythagorean-triple module's `digest` accessor. -/
theorem C7_deps_resolved_before_provider_witness :
    ∃ v s2, access Dtri Ptri "digest" RState.init = (Outcome.ok (some v), s2) := by
  obtain ⟨es, s1, v, _, _, _, _, hacc⟩ :=
    C7_deps_resolved_before_provider Dtri Ptri (by decide)
      (not_hasCycle_of_check_false Dtri (by decide) (by decide)) goodP_Ptri
      "digest" RState.init (by decide) (fun v h => by cases h) ccinv_init
  exact ⟨v, _, hacc⟩

/-- C8: accessor calls on an acyclic validated graph always terminate; if a
provider throws, the exception is the call's outcome, no cache entry is
written for the accessed member, every cache change during the call stores a
completed construction's value, previously cached members keep their values
and still hit the cache afterwards, and as long as the member stays uncached
a later access re-attempts construction. -/
theorem C8_provider_failure_policy {α ε : Type} (D : DepGraph) (P : Providers α ε)
    (hC : D.Closed) (hA : ¬ D.hasCycle) (m : String) (s : RState α) (hm : m ∈ D.keys) :
    (access D P m s).1 ≠ Outcome.fuelOut ∧
    (∀ k v, s.cache k = some (some v) → (access D P m s).2.cache k = some (some v)) ∧
    (∀ k, (access D P m s).2.cache k ≠ s.cache k → ∃ v, (access D P m s).2.cache k = some v) ∧
    (∀ e, (access D P m s).1 = Outcome.exn e → (access D P m s).2.cache m = s.cache m) ∧
    (∀ k v, (access D P m s).2.cache k = some (some v) →
      access D P k (access D P m s).2 =
        (Outcome.ok (some v),
         { (access D P m s).2 with
             trace := ((access D P m s).2.trace ++ [k ++ " - get"]) ++
               [k ++ " - already constructed"] })) ∧
    (∀ s3 : RState α, (∀ v, s3.cache m ≠ some (some v)) →
      ∃ t, (access D P m s3).2.trace =
        ((s3.trace ++ [m ++ " - get"]) ++ [m ++ " - constructing"]) ++ t) := by
  obtain ⟨rank, hrank, hbound⟩ := exists_rank D hA
  have hrm : rank m < injectorFuel D := by
    have := hbound m
    unfold injectorFuel
    omega
  obtain ⟨h1, h2, h3, h4, _, _⟩ :=
    getMember_bspec D P hC rank hrank (injectorFuel D) m s hm hrm
  refine ⟨h1, h2, h3, h4, ?_, ?_⟩
  · intro k v hv
    exact getMember_hit D P D.keys.length k _ v hv
  · intro s3 hm3
    show ∃ t, (getMember D P (D.keys.length + 1) m s3).2.trace = _
    rw [getMember_miss D P D.keys.length m s3 hm3]
    obtain ⟨res, s1, hrd⟩ : ∃ res s1, resolveDeps (getMember D P D.keys.length) (D.deps m)
        { s3 with trace := (s3.trace ++ [m ++ " - get"]) ++ [m ++ " - constructing"] } =
        (res, s1) := ⟨_, _, rfl⟩
    obtain ⟨t1, ht1⟩ := resolveDeps_trace (getMember D P D.keys.length)
      (getMember_trace D P D.keys.length) (D.deps m)
      { s3 with trace := (s3.trace ++ [m ++ " - get"]) ++ [m ++ " - constructing"] }
    rw [hrd] at ht1
    dsimp only at ht1
    rw [hrd]
    cases res with
    | ok es =>
      rcases hp : P m es with e | v
      · exact ⟨t1, by simp [hp, ht1]⟩
      · exact ⟨t1 ++ [m ++ " - constructed"], by simp [hp, ht1, List.append_assoc]⟩
    | exn e => exact ⟨t1, by simpa using ht1⟩
    | fuelOut => exact ⟨t1, by simpa using ht1⟩

/-- Witness for C8: with `b`'s provider throwing, the `digest` access of the
Pythagorean-triple module completes and propagates the exception. -/
theorem C8_provider_failure_policy_witness :
    (access Dtri PtriFail "digest" RState.init).1 ≠ Outcome.fuelOut ∧
    (access Dtri PtriFail "digest" RState.init).1 = Outcome.exn () :=
  ⟨(C8_provider_failure_policy Dtri PtriFail (by decide)
      (not_hasCycle_of_check_false Dtri (by decide) (by decide)) "digest" RState.init
      (by decide)).1,
   by decide⟩

/-- C10: a stored null/undefined value is never treated as a cache hit: the
access takes the constructing path again, re-resolves the declared
dependencies in order, re-invokes the provider (one more recorded
invocation), and overwrites the cache entry with the provider's new
result. -/
theorem C10_nullish_cache_never_hit {α ε : Type} (D : DepGraph) (P : Providers α ε)
    (hC : D.Closed) (hA : ¬ D.hasCycle) (m : String) (s : RState α) (hm : m ∈ D.keys)
    (hstored : s.cache m = some none) (hP : ∀ k es, ∃ v, P k es = Except.ok v) :
    ∃ es s1 v,
      resolveDeps (getMember D P D.keys.length) (D.deps m)
        { s with trace := (s.trace ++ [m ++ " - get"]) ++ [m ++ " - constructing"] } =
        (DepsRes.ok es, s1) ∧
      es.map Prod.fst = D.deps m ∧
      s1.calls m = s.calls m ∧
      P m es = Except.ok v ∧
      access D P m s =
        (Outcome.ok v,
         { s1 with
             calls := bump s1.calls m,
             cache := cset s1.cache m v,
             trace := s1.trace ++ [m ++ " - constructed"] }) ∧
      bump s1.calls m m = s.calls m + 1 := by
  obtain ⟨rank, hrank, hbound⟩ := exists_rank D hA
  have hmiss : ∀ v, s.cache m ≠ some (some v) := fun v h => by
    rw [hstored] at h
    cases h
  have hconds : ∀ d ∈ D.deps m, d ∈ D.keys ∧ rank d < D.keys.length ∧ rank d < rank m := by
    intro d hd
    have hlt := hrank m d ⟨hm, hd⟩
    have hb := hbound m
    exact ⟨hC m hm d hd, by omega, hlt⟩
  obtain ⟨es, s1, hres, hmap⟩ :=
    resolveDeps_suc D rank D.keys.length (getMember D P D.keys.length)
      (fun m2 s2 hm2 hr2 => getMember_suc D P hC rank hrank hP D.keys.length m2 s2 hm2 hr2)
      (D.deps m)
      { s with trace := (s.trace ++ [m ++ " - get"]) ++ [m ++ " - constructing"] }
      (fun d hd => ⟨(hconds d hd).1, (hconds d hd).2.1⟩)
  have hfr := resolveDeps_bspec D rank D.keys.length (getMember D P D.keys.length)
    (getMember_bspec D P hC rank hrank D.keys.length) (rank m) (D.deps m)
    { s with trace := (s.trace ++ [m ++ " - get"]) ++ [m ++ " - constructing"] } hconds
  rw [hres] at hfr
  have hcalls : s1.calls m = s.calls m := by
    have h := (hfr.2.2.2.1 m (le_refl _)).2
    dsimp only at h
    exact h
  obtain ⟨v, hp⟩ := hP m es
  refine ⟨es, s1, v, hres, hmap, hcalls, hp, ?_, ?_⟩
  · show getMember D P (D.keys.length + 1) m s = _
    rw [getMember_miss D P D.keys.length m s hmiss, hres]
    simp only [hp]
  · rw [bump]
    simp [hcalls]

/-- Witness for C10 at the state left by one access of the
undefined-returning provider. -/
theorem C10_nullish_cache_never_hit_witness :
    ∃ v s2, access Dsingle Pnull "a" (runAccesses Dsingle Pnull ["a"] RState.init).2 =
      (Outcome.ok v, s2) := by
  obtain ⟨es, s1, v, _, _, _, _, hacc, _⟩ :=
    C10_nullish_cache_never_hit Dsingle Pnull (by decide)
      (not_hasCycle_of_check_false Dsingle (by decide) (by decide)) "a"
      (runAccesses Dsingle Pnull ["a"] RState.init).2 (by decide) (by decide)
      (fun k es => ⟨none, rfl⟩)
  exact ⟨v, _, hacc⟩

/-- C9: with `checkForCycles` set to `skip`, resolver creation performs no
cycle inspection and never throws, returning the injector (its accessors are
`access D P`) for every mapping, cyclic ones included. -/
theorem C9_skip_never_throws {α ε : Type} (D : DepGraph) (P : Providers α ε) :
    makeInjector D P CheckMode.skip = Except.ok RState.init := rfl

theorem iset_self (f : String → Option NodeInfo) (k : String) (v : NodeInfo) :
    iset f k v k = some v := by
  simp [iset]

theorem iset_ne (f : String → Option NodeInfo) {x k : String} (h : x ≠ k) (v : NodeInfo) :
    iset f k v x = f x := by
  simp [iset, h]

theorem posOk_append {order : List String} {x : String} {i : Nat} (h : posOk order x i)
    (t : List String) : posOk (order ++ t) x i := by
  obtain ⟨h1, h2⟩ := h
  refine ⟨by simp; omega, ?_⟩
  rw [List.getD_eq_getElem?_getD] at h2 ⊢
  rw [List.getElem?_append, if_pos h1]
  exact h2

theorem posOk_push (order : List String) (x : String) :
    posOk (order ++ [x]) x order.length := by
  refine ⟨by simp, ?_⟩
  rw [List.getD_eq_getElem?_getD, List.getElem?_append_right (le_refl _)]
  simp

theorem posOk_mem {order : List String} {x : String} {i : Nat} (h : posOk order x i) :
    x ∈ order := by
  obtain ⟨h1, h2⟩ := h
  rw [List.getD_eq_getElem?_getD, List.getElem?_eq_getElem h1] at h2
  simp only [Option.getD_some] at h2
  rw [← h2]
  exact List.getElem_mem h1

theorem mem_posOk {order : List String} {x : String} (h : x ∈ order) :
    ∃ i, posOk order x i := by
  obtain ⟨n, hn⟩ := List.get_of_mem h
  refine ⟨n.1, n.isLt, ?_⟩
  rw [List.getD_eq_getElem?_getD, List.getElem?_eq_getElem n.isLt]
  simpa using hn

theorem posOk_inj {order : List String} {x y : String} {i : Nat}
    (hx : posOk order x i) (hy : posOk order y i) : x = y := by
  rw [← hx.2, ← hy.2]

theorem posOk_unique {order : List String} (hnd : order.Nodup) {x : String} {i j : Nat}
    (hi : posOk order x i) (hj : posOk order x j) : i = j := by
  have h1 : order.get ⟨i, hi.1⟩ = x := by
    have := hi.2
    rwa [List.getD_eq_getElem?_getD, List.getElem?_eq_getElem hi.1, Option.getD_some] at this
  have h2 : order.get ⟨j, hj.1⟩ = x := by
    have := hj.2
    rwa [List.getD_eq_getElem?_getD, List.getElem?_eq_getElem hj.1, Option.getD_some] at this
  have h3 := (List.Nodup.get_inj_iff hnd).mp (h1.trans h2.symm)
  simpa using h3

theorem getD_append_of_lt {l t : List String} {i : Nat} (h : i < l.length) :
    (l ++ t).getD i "" = l.getD i "" := by
  rw [List.getD_eq_getElem?_getD, List.getD_eq_getElem?_getD, List.getElem?_append, if_pos h]

theorem whitesG_mono {D : DepGraph} {s s2 : SccState}
    (h : ∀ x, (s.info x).isSome = true → (s2.info x).isSome = true) :
    whitesG D s2 ≤ whitesG D s := by
  refine length_filter_mono ?_
  intro a ha
  simp only [Option.isNone_iff_eq_none] at ha ⊢
  rcases hsa : s.info a with _ | v
  · rfl
  · have h2 := h a (by rw [hsa]; rfl)
    rw [ha] at h2
    cases h2

theorem whitesG_iset_aux {f : String → Option NodeInfo} {k : String} (v : NodeInfo)
    (hm : f k = none) :
    ∀ l : List String, k ∈ l →
      (l.filter fun x => ((iset f k v) x).isNone).length <
        (l.filter fun x => (f x).isNone).length := by
  intro l
  induction l with
  | nil => intro h; cases h
  | cons a t ih =>
    intro hk
    by_cases hak : a = k
    · subst hak
      rw [List.filter_cons, List.filter_cons]
      simp only [iset_self, hm, Option.isNone_none, Option.isNone_some]
      have hle : ((t.filter fun x => ((iset f a v) x).isNone)).length ≤
          ((t.filter fun x => (f x).isNone)).length :=
        length_filter_mono (fun x hx => by
          by_cases hxa : x = a
          · subst hxa; simp [iset_self] at hx
          · rwa [iset_ne f hxa] at hx)
      simp only [Bool.false_eq_true, if_false, if_true, List.length_cons]
      omega
    · have hkt : k ∈ t := by
        rcases List.mem_cons.mp hk with h | h
        · exact absurd h.symm hak
        · exact h
      have hrec := ih hkt
      have hva : (iset f k v) a = f a := iset_ne f (fun h => hak h) v
      rw [List.filter_cons, List.filter_cons, hva]
      rcases hfa : (f a).isNone with _ | _
      · simpa using hrec
      · simp only [if_true, List.length_cons]
        omega

theorem sccEvolve_refl (key : String) (s : SccState) : SccEvolve key s s :=
  ⟨⟨[], by simp⟩, ⟨[], by simp⟩, fun h => h, fun x hx => ⟨hx, le_refl _⟩,
    fun x mi p h => h, fun x _ _ => rfl, fun x h => h⟩

theorem sccEvolve_trans {key : String} {s s1 s2 : SccState}
    (e1 : SccEvolve key s s1) (e2 : SccEvolve key s1 s2) : SccEvolve key s s2 := by
  obtain ⟨⟨t1, ho1⟩, ⟨u1, hs1⟩, hf1, hm1, hv1, hg1, hgs1⟩ := e1
  obtain ⟨⟨t2, ho2⟩, ⟨u2, hs2⟩, hf2, hm2, hv2, hg2, hgs2⟩ := e2
  refine ⟨⟨t1 ++ t2, by rw [ho2, ho1, List.append_assoc]⟩,
    ⟨u1 ++ u2, by rw [hs2, hs1, List.append_assoc]⟩,
    fun h => hf2 (hf1 h), ?_, fun x mi p h => hv2 x mi p (hv1 x mi p h), ?_, ?_⟩
  · intro x hx
    obtain ⟨hx1, hx2⟩ := hm1 x hx
    obtain ⟨hx3, hx4⟩ := hm2 x hx1
    exact ⟨hx3, le_trans hx4 hx2⟩
  · intro x hx hxk
    have h1 := hg1 x hx hxk
    have hx1 : isGray s1 x := by
      obtain ⟨i, mi, hi⟩ := hx
      exact ⟨i, mi, by rw [h1, hi]⟩
    rw [hg2 x hx1 hxk, h1]
  · exact fun x hx => hgs1 x (hgs2 x hx)

theorem flagWit_transport {key : String} {s s2 : SccState} (e : SccEvolve key s s2)
    (h : s.selfCycle ≠ [] ∨
      ∃ x i, posOk s.order x i ∧ (s.info x).isSome = true ∧ infoMin s x < i) :
    s2.selfCycle ≠ [] ∨
      ∃ x i, posOk s2.order x i ∧ (s2.info x).isSome = true ∧ infoMin s2 x < i := by
  obtain ⟨⟨t, ho⟩, ⟨u, hs⟩, _, hm, _, _, _⟩ := e
  rcases h with h | ⟨x, i, hp, hsome, hmin⟩
  · left
    rw [hs]
    intro hemp
    exact h (List.append_eq_nil.mp hemp).1
  · right
    obtain ⟨hsome2, hle⟩ := hm x hsome
    exact ⟨x, i, by rw [ho]; exact posOk_append hp t, hsome2, by omega⟩

theorem infoMin_eq {s : SccState} {x : String} {nn : NodeInfo} (h : s.info x = some nn) :
    infoMin s x = nn.minIdx := by
  simp [infoMin, h]

theorem goNbrs_spec (D : DepGraph) (hC : D.Closed) (F : Nat)
    (recv : String → SccState → NodeInfo × SccState) (hrecv : GVisitSpec D recv F)
    (key : String) (vIdx : Nat) :
    ∀ ns minV s,
      key ∈ D.keys → (∀ n ∈ ns, n ∈ D.deps key) →
      s.info key = some (NodeInfo.visiting vIdx minV) →
      posOk s.order key vIdx → minV ≤ vIdx →
      whitesG D s < F → SccOk D s → GrayReachG D s key →
      (∀ x, isGray s x → x ≠ key →
        ∃ i mi, s.info x = some (NodeInfo.visiting i mi) ∧ i < vIdx) →
      SccOk D (goNbrs key vIdx recv ns minV s).2 ∧
      SccEvolve key s (goNbrs key vIdx recv ns minV s).2 ∧
      (goNbrs key vIdx recv ns minV s).2.info key =
        some (NodeInfo.visiting vIdx (goNbrs key vIdx recv ns minV s).1) ∧
      (goNbrs key vIdx recv ns minV s).1 ≤ minV ∧
      ((goNbrs key vIdx recv ns minV s).2.cyclesFlag = false →
        s.cyclesFlag = false ∧
        ∀ n ∈ ns, n ≠ key ∧ ∃ mi p, (goNbrs key vIdx recv ns minV s).2.info n =
          some (NodeInfo.visited mi p)) := by
  intro ns
  induction ns with
  | nil =>
    intro minV s hkey _ hik hpos hmv _ hok _ _
    refine ⟨hok, sccEvolve_refl key s, hik, le_refl _, ?_⟩
    intro hfl
    exact ⟨hfl, by simp⟩
  | cons n rest ih =>
    intro minV s hkey hns hik hpos hmv hwh hok hreach hbelow
    by_cases hnk : n = key
    · -- self-edge: record the self cycle and raise the flag
      subst hnk
      have hstep : goNbrs n vIdx recv (n :: rest) minV s =
          goNbrs n vIdx recv rest minV
            { s with
              selfCycle := if n ∈ s.selfCycle then s.selfCycle else s.selfCycle ++ [n],
              cyclesFlag := true } := by
        simp [goNbrs]
      rw [hstep]
      have hedge : D.Edge n n := ⟨hkey, hns n (List.mem_cons_self _ _)⟩
      have hsc1 : ∀ x, x ∈ (if n ∈ s.selfCycle then s.selfCycle else s.selfCycle ++ [n]) →
          x ∈ s.order := by
        intro x hx
        by_cases hmem : n ∈ s.selfCycle
        · rw [if_pos hmem] at hx
          exact hok.selfsub x hx
        · rw [if_neg hmem] at hx
          rcases List.mem_append.mp hx with h | h
          · exact hok.selfsub x h
          · rw [List.mem_singleton.mp h]
            exact posOk_mem hpos
      have hscne : (if n ∈ s.selfCycle then s.selfCycle else s.selfCycle ++ [n]) ≠ [] := by
        by_cases hmem : n ∈ s.selfCycle
        · rw [if_pos hmem]
          exact List.ne_nil_of_mem hmem
        · rw [if_neg hmem]
          simp
      have hok1 : SccOk D { s with
          selfCycle := if n ∈ s.selfCycle then s.selfCycle else s.selfCycle ++ [n],
          cyclesFlag := true } :=
        { dom := hok.dom, nodup := hok.nodup, keysub := hok.keysub,
          visitingOk := hok.visitingOk, visitedOk := hok.visitedOk,
          selfsub := hsc1,
          flagCyc := fun _ => ⟨n, Relation.TransGen.single hedge⟩,
          flagWit := fun _ => Or.inl hscne,
          blackSafe := fun h => by cases h }
      have hev1 : SccEvolve n s { s with
          selfCycle := if n ∈ s.selfCycle then s.selfCycle else s.selfCycle ++ [n],
          cyclesFlag := true } := by
        refine ⟨⟨[], by simp⟩, ?_, fun _ => rfl, fun x hx => ⟨hx, le_refl _⟩,
          fun x mi p h => h, fun x _ _ => rfl, fun x h => h⟩
        by_cases hmem : n ∈ s.selfCycle
        · exact ⟨[], by simp [if_pos hmem]⟩
        · exact ⟨[n], by simp [if_neg hmem]⟩
      have ihr := ih minV { s with
          selfCycle := if n ∈ s.selfCycle then s.selfCycle else s.selfCycle ++ [n],
          cyclesFlag := true } hkey (fun x hx => hns x (List.mem_cons_of_mem _ hx))
        hik hpos hmv hwh hok1 hreach hbelow
      obtain ⟨ihok, ihev, ihik, ihle, ihfl⟩ := ihr
      refine ⟨ihok, sccEvolve_trans hev1 ihev, ihik, ihle, ?_⟩
      intro hfl
      obtain ⟨hfl1, _⟩ := ihfl hfl
      cases hfl1
    · -- distinct neighbor
      rcases hin : s.info n with _ | nn
      · -- unvisited neighbor: recurse into it
        have hnkeys : n ∈ D.keys := hC key hkey n (hns n (List.mem_cons_self _ _))
        have hedge : D.Edge key n := ⟨hkey, hns n (List.mem_cons_self _ _)⟩
        have hreach2 : GrayReachG D s n := fun x hx =>
          Relation.ReflTransGen.tail (hreach x hx) hedge
        obtain ⟨rok, rev, rik, ⟨rmi, rp, rfin⟩, rgray⟩ :=
          hrecv n s hnkeys hin hwh hok hreach2
        rcases hr : recv n s with ⟨ninfo, s1⟩
        rw [hr] at rok rev rik rgray
        dsimp only at rok rev rik rgray
        rw [hr] at rfin
        dsimp only at rfin
        subst rfin
        have hstep : goNbrs key vIdx recv (n :: rest) minV s =
            goNbrs key vIdx recv rest (min minV (NodeInfo.visited rmi rp).minIdx)
              { s1 with
                info := iset s1.info key (NodeInfo.visiting vIdx (min minV (NodeInfo.visited rmi rp).minIdx)) } := by
          simp [goNbrs, hnk, hin, hr]
        rw [hstep]
        set mV2 := min minV (NodeInfo.visited rmi rp).minIdx with hmV2
        set s2 : SccState :=
          { s1 with info := iset s1.info key (NodeInfo.visiting vIdx mV2) } with hs2
        have hkgray : isGray s key := ⟨vIdx, minV, hik⟩
        have hik1 : s1.info key = some (NodeInfo.visiting vIdx minV) := by
          rw [rgray key hkgray, hik]
        obtain ⟨rord, rself, rflag, rmono, rvis, _, rgsub⟩ := rev
        have evA : SccEvolve key s s1 :=
          ⟨rord, rself, rflag, rmono, rvis, fun x hx _ => rgray x hx, rgsub⟩
        obtain ⟨tord, htord⟩ := rord
        have hminle : mV2 ≤ minV := min_le_left _ _
        have hpos1 : posOk s1.order key vIdx := by
          rw [htord]
          exact posOk_append hpos tord
        have hord2 : s2.order = s1.order := rfl
        have hfl2s : s2.cyclesFlag = s1.cyclesFlag := rfl
        have hik2 : s2.info key = some (NodeInfo.visiting vIdx mV2) := iset_self _ _ _
        have hne2 : ∀ x, x ≠ key → s2.info x = s1.info x := fun x hxk => iset_ne _ hxk _
        have ev12 : SccEvolve key s1 s2 := by
          refine ⟨⟨[], by simp [hord2]⟩, ⟨[], by simp [hs2]⟩,
            fun h => h, ?_, ?_, ?_, ?_⟩
          · intro x hx
            by_cases hxk : x = key
            · subst hxk
              refine ⟨by rw [hik2]; rfl, ?_⟩
              rw [infoMin_eq hik2, infoMin_eq hik1]
              exact hminle
            · rw [show infoMin s2 x = infoMin s1 x from by rw [infoMin, infoMin, hne2 x hxk]]
              refine ⟨?_, le_refl _⟩
              rw [hne2 x hxk]
              exact hx
          · intro x mi p h
            have hxk : x ≠ key := by
              intro hxk
              rw [hxk, hik1] at h
              cases h
            rw [hne2 x hxk]
            exact h
          · intro x _ hxk
            exact hne2 x hxk
          · intro x hx
            obtain ⟨i, mi, hi⟩ := hx
            by_cases hxk : x = key
            · subst hxk
              exact ⟨vIdx, minV, hik1⟩
            · rw [hne2 x hxk] at hi
              exact ⟨i, mi, hi⟩
        have hok2 : SccOk D s2 := by
          refine
            { dom := ?_, nodup := by rw [hord2]; exact rok.nodup,
              keysub := by rw [hord2]; exact rok.keysub,
              visitingOk := ?_, visitedOk := ?_,
              selfsub := by rw [show s2.selfCycle = s1.selfCycle from rfl]; exact rok.selfsub,
              flagCyc := by rw [hfl2s]; exact rok.flagCyc,
              flagWit := fun h => flagWit_transport ev12 (rok.flagWit (hfl2s ▸ h)),
              blackSafe := ?_ }
          · intro x
            by_cases hxk : x = key
            · subst hxk
              rw [hik2, hord2]
              simp only [Option.isSome_some]
              constructor
              · intro _
                exact posOk_mem hpos1
              · intro _
                trivial
            · rw [hne2 x hxk, hord2]
              exact rok.dom x
          · intro x i mi h
            by_cases hxk : x = key
            · subst hxk
              rw [hik2] at h
              injection h with h2
              injection h2 with h3 h4
              subst h3
              subst h4
              rw [hord2]
              exact ⟨hpos1, le_trans hminle hmv⟩
            · rw [hne2 x hxk] at h
              rw [hord2]
              exact rok.visitingOk x i mi h
          · intro x mi p h
            by_cases hxk : x = key
            · subst hxk
              rw [hik2] at h
              cases h
            · rw [hne2 x hxk] at h
              exact rok.visitedOk x mi p h
          · intro hf x mi p h
            by_cases hxk : x = key
            · subst hxk
              rw [hik2] at h
              cases h
            · rw [hne2 x hxk] at h
              exact rok.blackSafe (hfl2s ▸ hf) x mi p h
        have hreach3 : GrayReachG D s2 key := by
          intro x hx
          by_cases hxk : x = key
          · subst hxk
            exact Relation.ReflTransGen.refl
          · obtain ⟨i, mi, hi⟩ := hx
            rw [hne2 x hxk] at hi
            exact hreach x (rgsub x ⟨i, mi, hi⟩)
        have hbelow3 : ∀ x, isGray s2 x → x ≠ key →
            ∃ i mi, s2.info x = some (NodeInfo.visiting i mi) ∧ i < vIdx := by
          intro x hx hxk
          obtain ⟨i, mi, hi⟩ := hx
          rw [hne2 x hxk] at hi
          have hgs : isGray s x := rgsub x ⟨i, mi, hi⟩
          obtain ⟨i2, mi2, hi2, hlt⟩ := hbelow x hgs hxk
          have hinfo : s1.info x = s.info x := rgray x hgs
          rw [hne2 x hxk, hinfo, hi2]
          exact ⟨i2, mi2, rfl, hlt⟩
        have hwh3 : whitesG D s2 < F := by
          have h1 : whitesG D s1 ≤ whitesG D s := whitesG_mono (fun x hx => (rmono x hx).1)
          have h2 : whitesG D s2 ≤ whitesG D s1 := by
            refine whitesG_mono ?_
            intro x hx
            by_cases hxk : x = key
            · subst hxk
              rw [hik2]
              rfl
            · rwa [hne2 x hxk]
          omega
        have ihr := ih mV2 s2 hkey (fun x hx => hns x (List.mem_cons_of_mem _ hx))
          hik2 (hord2 ▸ hpos1) (le_trans hminle hmv) hwh3 hok2 hreach3 hbelow3
        obtain ⟨ihok, ihev, ihik, ihle, ihfl⟩ := ihr
        refine ⟨ihok, sccEvolve_trans (sccEvolve_trans evA ev12) ihev, ihik,
          le_trans ihle hminle, ?_⟩
        intro hfl
        obtain ⟨hfl4, hrest⟩ := ihfl hfl
        rw [hfl2s] at hfl4
        have hfl1 : s.cyclesFlag = false := by
          rcases hq : s.cyclesFlag with _ | _
          · rfl
          · rw [rflag hq] at hfl4
            cases hfl4
        refine ⟨hfl1, ?_⟩
        intro x hx
        rcases List.mem_cons.mp hx with h | h
        · subst h
          refine ⟨hnk, rmi, rp, ?_⟩
          obtain ⟨_, _, _, _, ihvis, _, _⟩ := ihev
          refine ihvis x rmi rp ?_
          rw [hne2 x hnk]
          exact rik
        · exact hrest x h
      · -- already-recorded neighbor
        have hedge : D.Edge key n := ⟨hkey, hns n (List.mem_cons_self _ _)⟩
        rcases nn with ⟨i_n, nmin⟩ | ⟨nmin, p_n⟩
        · -- in-progress neighbor: raise the flag and take the min
          obtain ⟨hposn, hminn⟩ := hok.visitingOk n i_n nmin hin
          obtain ⟨i', mi', heq, hlt⟩ := hbelow n ⟨i_n, nmin, hin⟩ hnk
          rw [hin] at heq
          injection heq with h2
          injection h2 with h3 h4
          subst h3
          subst h4
          have hstep : goNbrs key vIdx recv (n :: rest) minV s =
              goNbrs key vIdx recv rest (min minV nmin)
                { s with
                  info := iset s.info key (NodeInfo.visiting vIdx (min minV nmin)),
                  cyclesFlag := true } := by
            simp [goNbrs, hnk, hin]
          rw [hstep]
          set s2 : SccState :=
            { s with
              info := iset s.info key (NodeInfo.visiting vIdx (min minV nmin)),
              cyclesFlag := true } with hs2
          have hord2 : s2.order = s.order := rfl
          have hik2 : s2.info key = some (NodeInfo.visiting vIdx (min minV nmin)) :=
            iset_self _ _ _
          have hne2 : ∀ x, x ≠ key → s2.info x = s.info x := fun x hxk => iset_ne _ hxk _
          have hminle : min minV nmin ≤ minV := min_le_left _ _
          have hltv : min minV nmin < vIdx := by
            have h5 : min minV nmin ≤ nmin := min_le_right _ _
            omega
          have hok2 : SccOk D s2 := by
            refine
              { dom := ?_, nodup := hok.nodup, keysub := hok.keysub,
                visitingOk := ?_, visitedOk := ?_, selfsub := hok.selfsub,
                flagCyc := fun _ =>
                  ⟨n, Relation.TransGen.tail' (hreach n ⟨i_n, nmin, hin⟩) hedge⟩,
                flagWit := fun _ => Or.inr
                  ⟨key, vIdx, hpos, by rw [hik2]; rfl, by rw [infoMin_eq hik2]; exact hltv⟩,
                blackSafe := ?_ }
            · intro x
              by_cases hxk : x = key
              · subst hxk
                rw [hik2, hord2]
                simp only [Option.isSome_some]
                constructor
                · intro _
                  exact posOk_mem hpos
                · intro _
                  trivial
              · rw [hne2 x hxk, hord2]
                exact hok.dom x
            · intro x i mi h
              by_cases hxk : x = key
              · subst hxk
                rw [hik2] at h
                injection h with h5
                injection h5 with h6 h7
                subst h6
                subst h7
                rw [hord2]
                exact ⟨hpos, le_trans hminle hmv⟩
              · rw [hne2 x hxk] at h
                rw [hord2]
                exact hok.visitingOk x i mi h
            · intro x mi p h
              by_cases hxk : x = key
              · subst hxk
                rw [hik2] at h
                cases h
              · rw [hne2 x hxk] at h
                exact hok.visitedOk x mi p h
            · intro hf
              rw [hs2] at hf
              cases hf
          have ev2 : SccEvolve key s s2 := by
            refine ⟨⟨[], by simp [hord2]⟩, ⟨[], by simp [hs2]⟩, fun _ => rfl, ?_, ?_, ?_, ?_⟩
            · intro x hx
              by_cases hxk : x = key
              · subst hxk
                refine ⟨by rw [hik2]; rfl, ?_⟩
                rw [infoMin_eq hik2, infoMin_eq hik]
                exact hminle
              · rw [show infoMin s2 x = infoMin s x from by rw [infoMin, infoMin, hne2 x hxk]]
                refine ⟨?_, le_refl _⟩
                rw [hne2 x hxk]
                exact hx
            · intro x mi p h
              have hxk : x ≠ key := by
                intro hxk
                rw [hxk, hik] at h
                cases h
              rw [hne2 x hxk]
              exact h
            · intro x _ hxk
              exact hne2 x hxk
            · intro x hx
              obtain ⟨i, mi, hi⟩ := hx
              by_cases hxk : x = key
              · subst hxk
                exact ⟨vIdx, minV, hik⟩
              · rw [hne2 x hxk] at hi
                exact ⟨i, mi, hi⟩
          have hreach3 : GrayReachG D s2 key := by
            intro x hx
            by_cases hxk : x = key
            · subst hxk
              exact Relation.ReflTransGen.refl
            · obtain ⟨i, mi, hi⟩ := hx
              rw [hne2 x hxk] at hi
              exact hreach x ⟨i, mi, hi⟩
          have hbelow3 : ∀ x, isGray s2 x → x ≠ key →
              ∃ i mi, s2.info x = some (NodeInfo.visiting i mi) ∧ i < vIdx := by
            intro x hx hxk
            obtain ⟨i, mi, hi⟩ := hx
            rw [hne2 x hxk] at hi
            obtain ⟨i2, mi2, hi2, hlt2⟩ := hbelow x ⟨i, mi, hi⟩ hxk
            rw [hne2 x hxk, hi2]
            exact ⟨i2, mi2, rfl, hlt2⟩
          have hwh3 : whitesG D s2 < F := by
            have h2 : whitesG D s2 ≤ whitesG D s := by
              refine whitesG_mono ?_
              intro x hx
              by_cases hxk : x = key
              · subst hxk
                rw [hik2]
                rfl
              · rwa [hne2 x hxk]
            omega
          have ihr := ih (min minV nmin) s2 hkey
            (fun x hx => hns x (List.mem_cons_of_mem _ hx))
            hik2 (hord2 ▸ hpos) (le_of_lt hltv) hwh3 hok2 hreach3 hbelow3
          obtain ⟨ihok, ihev, ihik, ihle, ihfl⟩ := ihr
          refine ⟨ihok, sccEvolve_trans ev2 ihev, ihik, le_trans ihle hminle, ?_⟩
          intro hfl
          have hcontra := (ihfl hfl).1
          rw [hs2] at hcontra
          cases hcontra
        · -- finished neighbor: only the min is updated
          have hstep : goNbrs key vIdx recv (n :: rest) minV s =
              goNbrs key vIdx recv rest (min minV nmin)
                { s with
                  info := iset s.info key (NodeInfo.visiting vIdx (min minV nmin)) } := by
            simp [goNbrs, hnk, hin]
          rw [hstep]
          set s2 : SccState :=
            { s with info := iset s.info key (NodeInfo.visiting vIdx (min minV nmin)) }
            with hs2
          have hord2 : s2.order = s.order := rfl
          have hfl2s : s2.cyclesFlag = s.cyclesFlag := rfl
          have hik2 : s2.info key = some (NodeInfo.visiting vIdx (min minV nmin)) :=
            iset_self _ _ _
          have hne2 : ∀ x, x ≠ key → s2.info x = s.info x := fun x hxk => iset_ne _ hxk _
          have hminle : min minV nmin ≤ minV := min_le_left _ _
          have ev2 : SccEvolve key s s2 := by
            refine ⟨⟨[], by simp [hord2]⟩, ⟨[], by simp [hs2]⟩, fun h => h, ?_, ?_, ?_, ?_⟩
            · intro x hx
              by_cases hxk : x = key
              · subst hxk
                refine ⟨by rw [hik2]; rfl, ?_⟩
                rw [infoMin_eq hik2, infoMin_eq hik]
                exact hminle
              · rw [show infoMin s2 x = infoMin s x from by rw [infoMin, infoMin, hne2 x hxk]]
                refine ⟨?_, le_refl _⟩
                rw [hne2 x hxk]
                exact hx
            · intro x mi p h
              have hxk : x ≠ key := by
                intro hxk
                rw [hxk, hik] at h
                cases h
              rw [hne2 x hxk]
              exact h
            · intro x _ hxk
              exact hne2 x hxk
            · intro x hx
              obtain ⟨i, mi, hi⟩ := hx
              by_cases hxk : x = key
              · subst hxk
                exact ⟨vIdx, minV, hik⟩
              · rw [hne2 x hxk] at hi
                exact ⟨i, mi, hi⟩
          have hok2 : SccOk D s2 := by
            refine
              { dom := ?_, nodup := hok.nodup, keysub := hok.keysub,
                visitingOk := ?_, visitedOk := ?_, selfsub := hok.selfsub,
                flagCyc := hok.flagCyc,
                flagWit := fun h => flagWit_transport ev2 (hok.flagWit (hfl2s ▸ h)),
                blackSafe := ?_ }
            · intro x
              by_cases hxk : x = key
              · subst hxk
                rw [hik2, hord2]
                simp only [Option.isSome_some]
                constructor
                · intro _
                  exact posOk_mem hpos
                · intro _
                  trivial
              · rw [hne2 x hxk, hord2]
                exact hok.dom x
            · intro x i mi h
              by_cases hxk : x = key
              · subst hxk
                rw [hik2] at h
                injection h with h5
                injection h5 with h6 h7
                subst h6
                subst h7
                rw [hord2]
                exact ⟨hpos, le_trans hminle hmv⟩
              · rw [hne2 x hxk] at h
                rw [hord2]
                exact hok.visitingOk x i mi h
            · intro x mi p h
              by_cases hxk : x = key
              · subst hxk
                rw [hik2] at h
                cases h
              · rw [hne2 x hxk] at h
                exact hok.visitedOk x mi p h
            · intro hf x mi p h
              by_cases hxk : x = key
              · subst hxk
                rw [hik2] at h
                cases h
              · rw [hne2 x hxk] at h
                exact hok.blackSafe (hfl2s ▸ hf) x mi p h
          have hreach3 : GrayReachG D s2 key := by
            intro x hx
            by_cases hxk : x = key
            · subst hxk
              exact Relation.ReflTransGen.refl
            · obtain ⟨i, mi, hi⟩ := hx
              rw [hne2 x hxk] at hi
              exact hreach x ⟨i, mi, hi⟩
          have hbelow3 : ∀ x, isGray s2 x → x ≠ key →
              ∃ i mi, s2.info x = some (NodeInfo.visiting i mi) ∧ i < vIdx := by
            intro x hx hxk
            obtain ⟨i, mi, hi⟩ := hx
            rw [hne2 x hxk] at hi
            obtain ⟨i2, mi2, hi2, hlt2⟩ := hbelow x ⟨i, mi, hi⟩ hxk
            rw [hne2 x hxk, hi2]
            exact ⟨i2, mi2, rfl, hlt2⟩
          have hwh3 : whitesG D s2 < F := by
            have h2 : whitesG D s2 ≤ whitesG D s := by
              refine whitesG_mono ?_
              intro x hx
              by_cases hxk : x = key
              · subst hxk
                rw [hik2]
                rfl
              · rwa [hne2 x hxk]
            omega
          have ihr := ih (min minV nmin) s2 hkey
            (fun x hx => hns x (List.mem_cons_of_mem _ hx))
            hik2 (hord2 ▸ hpos) (le_trans hminle hmv) hwh3 hok2 hreach3 hbelow3
          obtain ⟨ihok, ihev, ihik, ihle, ihfl⟩ := ihr
          refine ⟨ihok, sccEvolve_trans ev2 ihev, ihik, le_trans ihle hminle, ?_⟩
          intro hfl
          obtain ⟨hfl4, hrest⟩ := ihfl hfl
          rw [hfl2s] at hfl4
          refine ⟨hfl4, ?_⟩
          intro x hx
          rcases List.mem_cons.mp hx with h | h
          · subst h
            refine ⟨hnk, nmin, p_n, ?_⟩
            obtain ⟨_, _, _, _, ihvis, _, _⟩ := ihev
            refine ihvis x nmin p_n ?_
            rw [hne2 x hnk]
            exact hin
          · exact hrest x h

theorem dfsVisitG_spec (D : DepGraph) (hC : D.Closed) :
    ∀ fuel, GVisitSpec D (dfsVisitG D fuel) fuel := by
  intro fuel
  induction fuel with
  | zero =>
    intro key s hkey hik hwh hok hreach
    exact absurd hwh (Nat.not_lt_zero _)
  | succ fuel ih =>
    intro key s hkey hik hwh hok hreach
    obtain ⟨minV, s2, hg⟩ : ∃ mv s2,
        goNbrs key s.order.length (dfsVisitG D fuel) (D.deps key) s.order.length
          { s with
            order := s.order ++ [key],
            info := iset s.info key (NodeInfo.visiting s.order.length s.order.length) } =
          (mv, s2) := ⟨_, _, rfl⟩
    have hstep : dfsVisitG D (fuel + 1) key s =
        (NodeInfo.visited minV (s2.order.getD minV ""),
         { s2 with info := iset s2.info key (NodeInfo.visited minV (s2.order.getD minV "")) }) := by
      simp only [dfsVisitG]
      rw [hg]
    set vIdx := s.order.length with hvIdx
    set s1 : SccState :=
      { s with
        order := s.order ++ [key],
        info := iset s.info key (NodeInfo.visiting vIdx vIdx) } with hs1
    have hkeynot : key ∉ s.order := by
      intro h
      have h2 := (hok.dom key).mpr h
      rw [hik] at h2
      cases h2
    have hord1 : s1.order = s.order ++ [key] := rfl
    have hfl1s : s1.cyclesFlag = s.cyclesFlag := rfl
    have hik1 : s1.info key = some (NodeInfo.visiting vIdx vIdx) := iset_self _ _ _
    have hne1 : ∀ x, x ≠ key → s1.info x = s.info x := fun x hxk => iset_ne _ hxk _
    have hpos1 : posOk s1.order key vIdx := by
      rw [hord1, hvIdx]
      exact posOk_push s.order key
    have hwh1 : whitesG D s1 < fuel := by
      have h2 : whitesG D s1 < whitesG D s :=
        whitesG_iset_aux (NodeInfo.visiting vIdx vIdx) hik D.keys hkey
      omega
    have hok1 : SccOk D s1 := by
      refine
        { dom := ?_, nodup := ?_, keysub := ?_, visitingOk := ?_, visitedOk := ?_,
          selfsub := ?_, flagCyc := hok.flagCyc, flagWit := ?_, blackSafe := ?_ }
      · intro x
        by_cases hxk : x = key
        · subst hxk
          rw [hik1, hord1]
          simp
        · rw [hne1 x hxk, hord1]
          rw [List.mem_append]
          constructor
          · intro h
            exact Or.inl ((hok.dom x).mp h)
          · intro h
            rcases h with h | h
            · exact (hok.dom x).mpr h
            · rw [List.mem_singleton] at h
              exact absurd h hxk
      · rw [hord1, List.nodup_append]
        exact ⟨hok.nodup, List.nodup_singleton key,
          fun a ha hb => by rw [List.mem_singleton] at hb; subst hb; exact hkeynot ha⟩
      · intro x hx
        rw [hord1, List.mem_append] at hx
        rcases hx with h | h
        · exact hok.keysub x h
        · rw [List.mem_singleton] at h
          subst h
          exact hkey
      · intro x i mi h
        by_cases hxk : x = key
        · subst hxk
          rw [hik1] at h
          injection h with h2
          injection h2 with h3 h4
          subst h3
          subst h4
          exact ⟨hpos1, le_refl _⟩
        · rw [hne1 x hxk] at h
          obtain ⟨hp, hm⟩ := hok.visitingOk x i mi h
          rw [hord1]
          exact ⟨posOk_append hp [key], hm⟩
      · intro x mi p h
        by_cases hxk : x = key
        · subst hxk
          rw [hik1] at h
          cases h
        · rw [hne1 x hxk] at h
          obtain ⟨i, hp, hm, hgd⟩ := hok.visitedOk x mi p h
          refine ⟨i, ?_, hm, ?_⟩
          · rw [hord1]
            exact posOk_append hp [key]
          · rw [hord1, getD_append_of_lt (lt_of_le_of_lt hm hp.1)]
            exact hgd
      · intro x hx
        rw [hord1, List.mem_append]
        exact Or.inl (hok.selfsub x hx)
      · intro h
        rw [hfl1s] at h
        rcases hok.flagWit h with h2 | ⟨x, i, hp, hs, hm⟩
        · exact Or.inl h2
        · have hxk : x ≠ key := by
            intro hxk
            rw [hxk, hik] at hs
            cases hs
          refine Or.inr ⟨x, i, ?_, ?_, ?_⟩
          · rw [hord1]
            exact posOk_append hp [key]
          · rw [hne1 x hxk]
            exact hs
          · rw [show infoMin s1 x = infoMin s x from by rw [infoMin, infoMin, hne1 x hxk]]
            exact hm
      · intro hf x mi p h
        by_cases hxk : x = key
        · subst hxk
          rw [hik1] at h
          cases h
        · rw [hne1 x hxk] at h
          exact hok.blackSafe (hfl1s ▸ hf) x mi p h
    have hreach1 : GrayReachG D s1 key := by
      intro x hx
      by_cases hxk : x = key
      · subst hxk
        exact Relation.ReflTransGen.refl
      · obtain ⟨i, mi, hi⟩ := hx
        rw [hne1 x hxk] at hi
        exact hreach x ⟨i, mi, hi⟩
    have hbelow1 : ∀ x, isGray s1 x → x ≠ key →
        ∃ i mi, s1.info x = some (NodeInfo.visiting i mi) ∧ i < vIdx := by
      intro x hx hxk
      obtain ⟨i, mi, hi⟩ := hx
      rw [hne1 x hxk] at hi
      obtain ⟨hp, _⟩ := hok.visitingOk x i mi hi
      rw [hne1 x hxk, hi]
      exact ⟨i, mi, rfl, hp.1⟩
    have hgs := goNbrs_spec D hC fuel (dfsVisitG D fuel) ih key vIdx (D.deps key) vIdx s1
      hkey (fun n hn => hn) hik1 hpos1 (le_refl _) hwh1 hok1 hreach1 hbelow1
    rw [hg] at hgs
    dsimp only at hgs
    obtain ⟨hok2, hev2, hik2, hle2, hflf⟩ := hgs
    obtain ⟨⟨t2, hord2⟩, ⟨u2, hself2⟩, hflmono2, hmono2, hvis2, hgfr2, hgsub2⟩ := hev2
    have hpos2 : posOk s2.order key vIdx := by
      rw [hord2]
      exact posOk_append hpos1 t2
    rw [hstep]
    set fin := NodeInfo.visited minV (s2.order.getD minV "") with hfin
    set s3 : SccState := { s2 with info := iset s2.info key fin } with hs3
    dsimp only
    have hord3 : s3.order = s2.order := rfl
    have hfl3s : s3.cyclesFlag = s2.cyclesFlag := rfl
    have hik3 : s3.info key = some fin := iset_self _ _ _
    have hne3 : ∀ x, x ≠ key → s3.info x = s2.info x := fun x hxk => iset_ne _ hxk _
    have hmin3 : infoMin s3 key = minV := by
      rw [infoMin_eq hik3, hfin]
      rfl
    have hmin2 : infoMin s2 key = minV := by
      rw [infoMin_eq hik2]
      rfl
    have hok3 : SccOk D s3 := by
      refine
        { dom := ?_, nodup := by rw [hord3]; exact hok2.nodup,
          keysub := by rw [hord3]; exact hok2.keysub,
          visitingOk := ?_, visitedOk := ?_,
          selfsub := by rw [hord3, show s3.selfCycle = s2.selfCycle from rfl]
                        exact hok2.selfsub,
          flagCyc := by rw [hfl3s]; exact hok2.flagCyc,
          flagWit := ?_, blackSafe := ?_ }
      · intro x
        by_cases hxk : x = key
        · subst hxk
          rw [hik3, hord3]
          simp only [Option.isSome_some]
          constructor
          · intro _
            exact posOk_mem hpos2
          · intro _
            trivial
        · rw [hne3 x hxk, hord3]
          exact hok2.dom x
      · intro x i mi h
        by_cases hxk : x = key
        · subst hxk
          rw [hik3, hfin] at h
          cases h
        · rw [hne3 x hxk] at h
          rw [hord3]
          exact hok2.visitingOk x i mi h
      · intro x mi p h
        by_cases hxk : x = key
        · subst hxk
          rw [hik3, hfin] at h
          injection h with h2
          injection h2 with h3 h4
          subst h3
          subst h4
          rw [hord3]
          exact ⟨vIdx, hpos2, hle2, rfl⟩
        · rw [hne3 x hxk] at h
          rw [hord3]
          exact hok2.visitedOk x mi p h
      · intro h
        rw [hfl3s] at h
        rcases hok2.flagWit h with h2 | ⟨x, i, hp, hs, hm⟩
        · exact Or.inl h2
        · refine Or.inr ⟨x, i, by rw [hord3]; exact hp, ?_, ?_⟩
          · by_cases hxk : x = key
            · subst hxk
              rw [hik3]
              rfl
            · rw [hne3 x hxk]
              exact hs
          · by_cases hxk : x = key
            · subst hxk
              rw [hmin3, ← hmin2]
              exact hm
            · rw [show infoMin s3 x = infoMin s2 x from by
                rw [infoMin, infoMin, hne3 x hxk]]
              exact hm
      · intro hf x mi p h
        rw [hfl3s] at hf
        by_cases hxk : x = key
        · subst hxk
          obtain ⟨hflA, hnbrs⟩ := hflf hf
          intro hcyc
          obtain ⟨n, hkn, hnk2⟩ := Relation.TransGen.head'_iff.mp hcyc
          have hncyc : Relation.TransGen D.Edge n n := Relation.TransGen.tail' hnk2 hkn
          obtain ⟨hnkey, nmi, np, hnvis⟩ := hnbrs n hkn.2
          exact hok2.blackSafe hf n nmi np hnvis hncyc
        · rw [hne3 x hxk] at h
          exact hok2.blackSafe hf x mi p h
    have hev3 : SccEvolve key s s3 := by
      refine ⟨⟨[key] ++ t2, by rw [hord3, hord2, hord1, List.append_assoc]⟩,
        ⟨u2, by rw [show s3.selfCycle = s2.selfCycle from rfl, hself2]⟩,
        ?_, ?_, ?_, ?_, ?_⟩
      · intro h
        rw [hfl3s]
        exact hflmono2 (hfl1s ▸ h)
      · intro x hx
        have hxk : x ≠ key := by
          intro hxk
          rw [hxk, hik] at hx
          cases hx
        have hx1 : (s1.info x).isSome = true := by
          rw [hne1 x hxk]
          exact hx
        obtain ⟨hx2, hm2⟩ := hmono2 x hx1
        constructor
        · rw [hne3 x hxk]
          exact hx2
        · rw [show infoMin s3 x = infoMin s2 x from by rw [infoMin, infoMin, hne3 x hxk],
            show infoMin s1 x = infoMin s x from by rw [infoMin, infoMin, hne1 x hxk]] at *
          exact hm2
      · intro x mi p h
        have hxk : x ≠ key := by
          intro hxk
          rw [hxk, hik] at h
          cases h
        rw [hne3 x hxk]
        refine hvis2 x mi p ?_
        rw [hne1 x hxk]
        exact h
      · intro x hx hxk
        have hx1 : isGray s1 x := by
          obtain ⟨i, mi, hi⟩ := hx
          exact ⟨i, mi, by rw [hne1 x hxk]; exact hi⟩
        rw [hne3 x hxk, hgfr2 x hx1 hxk, hne1 x hxk]
      · intro x hx
        by_cases hxk : x = key
        · subst hxk
          obtain ⟨i, mi, hi⟩ := hx
          rw [hik3, hfin] at hi
          cases hi
        · obtain ⟨i, mi, hi⟩ := hx
          rw [hne3 x hxk] at hi
          have hx2 : isGray s1 x := hgsub2 x ⟨i, mi, hi⟩
          obtain ⟨j, mj, hj⟩ := hx2
          rw [hne1 x hxk] at hj
          exact ⟨j, mj, hj⟩
    refine ⟨hok3, hev3, iset_self _ _ _, ⟨minV, s2.order.getD minV "", rfl⟩, ?_⟩
    intro x hx
    have hxk : x ≠ key := by
      intro hxk
      rw [hxk] at hx
      obtain ⟨i, mi, hi⟩ := hx
      rw [hik] at hi
      cases hi
    have hx1 : isGray s1 x := by
      obtain ⟨i, mi, hi⟩ := hx
      exact ⟨i, mi, by rw [hne1 x hxk]; exact hi⟩
    rw [iset_ne _ hxk _, hgfr2 x hx1 hxk, hne1 x hxk]

theorem sccLoop_spec (D : DepGraph) (hC : D.Closed) (fuel : Nat) :
    ∀ ks s, (∀ k ∈ ks, k ∈ D.keys) → whitesG D s < fuel → SccOk D s →
      (∀ x, ¬ isGray s x) →
      SccOk D (sccLoop D fuel ks s) ∧
      (∀ x, ¬ isGray (sccLoop D fuel ks s) x) ∧
      (∀ k ∈ ks, ((sccLoop D fuel ks s).info k).isSome = true) ∧
      (∀ x, (s.info x).isSome = true → ((sccLoop D fuel ks s).info x).isSome = true) ∧
      (s.cyclesFlag = true → (sccLoop D fuel ks s).cyclesFlag = true) := by
  intro ks
  induction ks with
  | nil =>
    intro s hks hwh hok hng
    exact ⟨hok, hng, fun k hk => absurd hk (List.not_mem_nil k),
      fun x hx => hx, fun h => h⟩
  | cons k rest ih =>
    intro s hks hwh hok hng
    have hkD : k ∈ D.keys := hks k (List.mem_cons_self _ _)
    rcases hin : s.info k with _ | nn
    · have hreach : GrayReachG D s k := fun x hx => absurd hx (hng x)
      obtain ⟨hok1, hev1, hik1, ⟨mi, p, hfin⟩, _⟩ :=
        dfsVisitG_spec D hC fuel k s hkD hin hwh hok hreach
      obtain ⟨_, _, hflmono, hmono, _, _, hgsub⟩ := hev1
      have hstep : sccLoop D fuel (k :: rest) s =
          sccLoop D fuel rest (dfsVisitG D fuel k s).2 := by
        simp [sccLoop, hin]
      rw [hstep]
      have hng1 : ∀ x, ¬ isGray (dfsVisitG D fuel k s).2 x :=
        fun x hx => hng x (hgsub x hx)
      have hwh1 : whitesG D (dfsVisitG D fuel k s).2 < fuel :=
        lt_of_le_of_lt (whitesG_mono (fun x hx => (hmono x hx).1)) hwh
      obtain ⟨rok, rng, rks, rmono, rfg⟩ := ih (dfsVisitG D fuel k s).2
        (fun x hx => hks x (List.mem_cons_of_mem _ hx)) hwh1 hok1 hng1
      refine ⟨rok, rng, ?_, ?_, ?_⟩
      · intro x hx
        rcases List.mem_cons.mp hx with h | h
        · subst h
          refine rmono x ?_
          rw [hik1]
          rfl
        · exact rks x h
      · intro x hx
        exact rmono x ((hmono x hx).1)
      · intro h
        exact rfg (hflmono h)
    · have hstep : sccLoop D fuel (k :: rest) s = sccLoop D fuel rest s := by
        simp [sccLoop, hin]
      rw [hstep]
      obtain ⟨rok, rng, rks, rmono, rfg⟩ := ih s
        (fun x hx => hks x (List.mem_cons_of_mem _ hx)) hwh hok hng
      refine ⟨rok, rng, ?_, rmono, rfg⟩
      intro x hx
      rcases List.mem_cons.mp hx with h | h
      · subst h
        refine rmono x ?_
        rw [hin]
        rfl
      · exact rks x h

theorem sccOk_init (D : DepGraph) : SccOk D SccState.init := by
  refine
    { dom := fun x => by simp [SccState.init],
      nodup := List.nodup_nil,
      keysub := fun x hx => absurd hx (List.not_mem_nil x),
      visitingOk := fun x i mi h => by simp [SccState.init] at h,
      visitedOk := fun x mi p h => by simp [SccState.init] at h,
      selfsub := fun x hx => absurd hx (List.not_mem_nil x),
      flagCyc := fun h => by simp [SccState.init] at h,
      flagWit := fun h => by simp [SccState.init] at h,
      blackSafe := fun _ x mi p h => by simp [SccState.init] at h }

theorem noGray_init : ∀ x, ¬ isGray SccState.init x := by
  intro x hx
  obtain ⟨i, mi, hi⟩ := hx
  simp [SccState.init] at hi

theorem whitesG_init_lt (D : DepGraph) :
    whitesG D SccState.init < D.keys.length + 1 :=
  Nat.lt_succ_of_le (List.length_filter_le _ _)

theorem sccFinal_facts (D : DepGraph) (hC : D.Closed) :
    SccOk D (sccLoop D (D.keys.length + 1) D.keys SccState.init) ∧
    (∀ x, ¬ isGray (sccLoop D (D.keys.length + 1) D.keys SccState.init) x) ∧
    (∀ k ∈ D.keys,
      ((sccLoop D (D.keys.length + 1) D.keys SccState.init).info k).isSome = true) := by
  obtain ⟨rok, rng, rks, _, _⟩ :=
    sccLoop_spec D hC (D.keys.length + 1) D.keys SccState.init
      (fun k hk => hk) (whitesG_init_lt D) (sccOk_init D) noGray_init
  exact ⟨rok, rng, rks⟩

theorem sccFlag_iff (D : DepGraph) (hC : D.Closed) :
    (sccLoop D (D.keys.length + 1) D.keys SccState.init).cyclesFlag = true ↔
      D.hasCycle := by
  obtain ⟨rok, rng, rks⟩ := sccFinal_facts D hC
  constructor
  · exact rok.flagCyc
  · intro hcyc
    by_contra hfl
    have hfl2 : (sccLoop D (D.keys.length + 1) D.keys SccState.init).cyclesFlag = false := by
      rcases h : (sccLoop D (D.keys.length + 1) D.keys SccState.init).cyclesFlag with _ | _
      · rfl
      · exact absurd h hfl
    obtain ⟨x, hx⟩ := hcyc
    obtain ⟨y, hxy, _⟩ := Relation.TransGen.head'_iff.mp hx
    have hsome := rks x hxy.1
    rcases hinfo : (sccLoop D (D.keys.length + 1) D.keys SccState.init).info x with _ | nn
    · rw [hinfo] at hsome
      cases hsome
    · rcases nn with ⟨i, mi⟩ | ⟨mi, p⟩
      · exact rng x ⟨i, mi, hinfo⟩
      · exact rok.blackSafe hfl2 x mi p hinfo hx

theorem rootOf_fixpoint {info : String → Option NodeInfo} {r : String} {mr : Nat}
    (h : info r = some (NodeInfo.visited mr r)) : ∀ F, rootOf info F r = r := by
  intro F
  cases F with
  | zero => rfl
  | succ F => simp [rootOf, h]

theorem rootOf_chase {info : String → Option NodeInfo} {order : List String}
    (hnd : order.Nodup)
    (hvOk : ∀ x mi p, info x = some (NodeInfo.visited mi p) →
      ∃ i, posOk order x i ∧ mi ≤ i ∧ p = order.getD mi "")
    (hblack : ∀ x ∈ order, ∃ mi p, info x = some (NodeInfo.visited mi p)) :
    ∀ F x i, posOk order x i → i < F →
      ∃ j, posOk order (rootOf info F x) j ∧ j ≤ i ∧
        ∃ mr, info (rootOf info F x) = some (NodeInfo.visited mr (rootOf info F x)) := by
  intro F
  induction F with
  | zero =>
    intro x i hp hi
    exact absurd hi (Nat.not_lt_zero _)
  | succ F ihF =>
    intro x i hp hi
    obtain ⟨mi, p, hinfo⟩ := hblack x (posOk_mem hp)
    obtain ⟨i2, hp2, hmi, hpd⟩ := hvOk x mi p hinfo
    have hii : i2 = i := posOk_unique hnd hp2 hp
    rw [hii] at hp2 hmi
    by_cases hpx : p = x
    · have hroot : rootOf info (F + 1) x = x := by
        rw [hpx] at hinfo
        simp [rootOf, hinfo]
      rw [hroot]
      refine ⟨i, hp, le_refl _, mi, ?_⟩
      rw [hinfo, hpx]
    · have hroot : rootOf info (F + 1) x = rootOf info F p := by
        simp [rootOf, hinfo, hpx]
      have hmilt : mi < i :=
        lt_of_le_of_ne hmi (fun hEq => hpx (by rw [hpd, hEq]; exact hp.2))
      have hpposm : posOk order p mi := ⟨lt_trans hmilt hp.1, hpd.symm⟩
      have hmiF : mi < F := by omega
      obtain ⟨j, hpj, hji, hfix⟩ := ihF p mi hpposm hmiF
      rw [hroot]
      exact ⟨j, hpj, le_trans hji (le_of_lt hmilt), hfix⟩

theorem rootOf_moved {info : String → Option NodeInfo} {order : List String}
    (hnd : order.Nodup)
    (hvOk : ∀ x mi p, info x = some (NodeInfo.visited mi p) →
      ∃ i, posOk order x i ∧ mi ≤ i ∧ p = order.getD mi "")
    (hblack : ∀ x ∈ order, ∃ mi p, info x = some (NodeInfo.visited mi p))
    {x i mi p} (hp : posOk order x i)
    (hinfo : info x = some (NodeInfo.visited mi p)) (hmi : mi < i) :
    rootOf info order.length x ≠ x := by
  obtain ⟨i2, hp2, hmi2, hpd⟩ := hvOk x mi p hinfo
  have hii : i2 = i := posOk_unique hnd hp2 hp
  rw [hii] at hp2 hmi2
  have hpx : p ≠ x := by
    intro hEq
    have hpposm : posOk order p mi := ⟨lt_trans hmi hp.1, hpd.symm⟩
    rw [hEq] at hpposm
    have := posOk_unique hnd hpposm hp
    omega
  obtain ⟨L, hL⟩ : ∃ L, order.length = L + 1 :=
    ⟨order.length - 1, by have := hp.1; omega⟩
  have hroot : rootOf info order.length x = rootOf info L p := by
    rw [hL]
    simp [rootOf, hinfo, hpx]
  have hpposm : posOk order p mi := ⟨lt_trans hmi hp.1, hpd.symm⟩
  have hmiL : mi < L := by
    have := hp.1
    omega
  obtain ⟨j, hpj, hji, _⟩ := rootOf_chase hnd hvOk hblack L p mi hpposm hmiL
  rw [hroot]
  intro hEq
  rw [hEq] at hpj
  have := posOk_unique hnd hpj hp
  omega

theorem key_of_bump (r : String) (n : String) (p : String × List String) :
    ((if p.1 = r then (p.1, p.2 ++ [n]) else p) : String × List String).1 = p.1 := by
  by_cases h : p.1 = r <;> simp [h]

theorem find?_map_bump (r n r0 : String) : ∀ comps : List (String × List String),
    ((comps.map (fun p => if p.1 = r then (p.1, p.2 ++ [n]) else p)).find?
        (fun p => p.1 = r0)) =
      (comps.find? (fun p => p.1 = r0)).map
        (fun p => if p.1 = r then (p.1, p.2 ++ [n]) else p) := by
  intro comps
  induction comps with
  | nil => rfl
  | cons a t ih =>
    rw [List.map_cons]
    by_cases ha : a.1 = r0
    · rw [List.find?_cons_of_pos, List.find?_cons_of_pos]
      · rfl
      · exact decide_eq_true ha
      · rw [key_of_bump]
        exact decide_eq_true ha
    · rw [List.find?_cons_of_neg, List.find?_cons_of_neg]
      · exact ih
      · exact fun h2 => ha (of_decide_eq_true h2)
      · rw [key_of_bump]
        exact fun h2 => ha (of_decide_eq_true h2)

theorem find?_append_some {α : Type} {l1 : List α} {q : α → Bool} {a : α}
    (h : l1.find? q = some a) : ∀ l2, (l1 ++ l2).find? q = some a := by
  induction l1 with
  | nil => cases h
  | cons b t ih =>
    intro l2
    rcases hb : q b with _ | _
    · rw [List.find?_cons_of_neg _ (by rw [hb]; exact Bool.false_ne_true)] at h
      rw [List.cons_append, List.find?_cons_of_neg _ (by rw [hb]; exact Bool.false_ne_true)]
      exact ih h l2
    · rw [List.find?_cons_of_pos _ hb] at h
      rw [List.cons_append, List.find?_cons_of_pos _ hb]
      exact h

theorem find?_append_none {α : Type} {l1 : List α} {q : α → Bool}
    (h : l1.find? q = none) : ∀ l2, (l1 ++ l2).find? q = l2.find? q := by
  induction l1 with
  | nil => intro l2; rfl
  | cons b t ih =>
    intro l2
    rcases hb : q b with _ | _
    · rw [List.find?_cons_of_neg _ (by rw [hb]; exact Bool.false_ne_true)] at h
      rw [List.cons_append, List.find?_cons_of_neg _ (by rw [hb]; exact Bool.false_ne_true)]
      exact ih h l2
    · rw [List.find?_cons_of_pos _ hb] at h
      cases h

theorem addToComponent_self (comps : List (String × List String)) (r n : String) :
    ∃ pr, (addToComponent comps r n).find? (fun p => p.1 = r) = some pr ∧ n ∈ pr.2 := by
  rw [addToComponent]
  by_cases hany : comps.any (fun p => decide (p.1 = r)) = true
  case neg =>
    rw [if_neg hany]
    have hnone : comps.find? (fun p => p.1 = r) = none := by
      rw [List.find?_eq_none]
      intro x hx hqx
      exact hany (List.any_eq_true.mpr ⟨x, hx, hqx⟩)
    rw [find?_append_none hnone]
    refine ⟨(r, [n]), ?_, List.mem_singleton_self n⟩
    rw [List.find?_cons_of_pos]
    exact decide_eq_true rfl
  case pos =>
    rw [if_pos hany]
    obtain ⟨p0, hp0mem, hp0⟩ := List.any_eq_true.mp hany
    have hsome : (comps.find? (fun p => p.1 = r)).isSome = true :=
      List.find?_isSome.mpr ⟨p0, hp0mem, hp0⟩
    rcases hfind : comps.find? (fun p => p.1 = r) with _ | pr0
    · rw [hfind] at hsome
      cases hsome
    · have hkey : pr0.1 = r := by
        have h2 := List.find?_some hfind
        simpa using h2
      rw [find?_map_bump, hfind]
      refine ⟨(pr0.1, pr0.2 ++ [n]), ?_, List.mem_append_right _ (List.mem_singleton_self n)⟩
      simp [hkey]

theorem addToComponent_frame (comps : List (String × List String)) (r n r0 : String)
    {pr0 : String × List String}
    (hfind : comps.find? (fun p => p.1 = r0) = some pr0) :
    ∃ pr2, (addToComponent comps r n).find? (fun p => p.1 = r0) = some pr2 ∧
      ∀ m ∈ pr0.2, m ∈ pr2.2 := by
  rw [addToComponent]
  by_cases hany : comps.any (fun p => decide (p.1 = r)) = true
  case neg =>
    rw [if_neg hany]
    exact ⟨pr0, find?_append_some hfind _, fun m hm => hm⟩
  case pos =>
    rw [if_pos hany]
    rw [find?_map_bump, hfind]
    by_cases hk : pr0.1 = r
    · refine ⟨(pr0.1, pr0.2 ++ [n]), by simp [hk], fun m hm => List.mem_append_left _ hm⟩
    · exact ⟨pr0, by simp [hk], fun m hm => hm⟩

theorem foldl_comp_frame (rt : String → String) :
    ∀ (l : List String) (comps : List (String × List String)) (r0 : String)
      (pr0 : String × List String),
      comps.find? (fun p => p.1 = r0) = some pr0 →
      ∃ pr2, ((l.foldl (fun comps node => addToComponent comps (rt node) node)
          comps).find? (fun p => p.1 = r0)) = some pr2 ∧
        ∀ m ∈ pr0.2, m ∈ pr2.2 := by
  intro l
  induction l with
  | nil =>
    intro comps r0 pr0 hfind
    exact ⟨pr0, hfind, fun m hm => hm⟩
  | cons a t ih =>
    intro comps r0 pr0 hfind
    obtain ⟨pr1, hfind1, hsub1⟩ := addToComponent_frame comps (rt a) a r0 hfind
    obtain ⟨pr2, hfind2, hsub2⟩ := ih (addToComponent comps (rt a) a) r0 pr1 hfind1
    exact ⟨pr2, hfind2, fun m hm => hsub2 m (hsub1 m hm)⟩

theorem foldl_comp_mem (rt : String → String) :
    ∀ (l : List String) (comps : List (String × List String)) (node : String),
      node ∈ l →
      ∃ pr, ((l.foldl (fun comps node => addToComponent comps (rt node) node)
          comps).find? (fun p => p.1 = rt node)) = some pr ∧ node ∈ pr.2 := by
  intro l
  induction l with
  | nil =>
    intro comps node hmem
    exact absurd hmem (List.not_mem_nil node)
  | cons a t ih =>
    intro comps node hmem
    rcases List.mem_cons.mp hmem with h | h
    · subst h
      obtain ⟨pr1, hfind1, hmem1⟩ := addToComponent_self comps (rt node) node
      obtain ⟨pr2, hfind2, hsub2⟩ :=
        foldl_comp_frame rt t (addToComponent comps (rt node) node) (rt node) pr1 hfind1
      exact ⟨pr2, hfind2, hsub2 node hmem1⟩
    · exact ih (addToComponent comps (rt a) a) node h

theorem one_lt_length_of_two_mem {α : Type} {a b : α} {l : List α}
    (ha : a ∈ l) (hb : b ∈ l) (hab : a ≠ b) : 1 < l.length := by
  rcases l with _ | ⟨x, l2⟩
  · exact absurd ha (List.not_mem_nil a)
  · rcases l2 with _ | ⟨y, l3⟩
    · rw [List.mem_singleton] at ha hb
      exact absurd (ha.trans hb.symm) hab
    · simp only [List.length_cons]
      omega

theorem comps_two_mem {info : String → Option NodeInfo} {order : List String}
    (hnd : order.Nodup)
    (hvOk : ∀ x mi p, info x = some (NodeInfo.visited mi p) →
      ∃ i, posOk order x i ∧ mi ≤ i ∧ p = order.getD mi "")
    (hblack : ∀ x ∈ order, ∃ mi p, info x = some (NodeInfo.visited mi p))
    {x : String} (hx : x ∈ order) (hne : rootOf info order.length x ≠ x) :
    ∃ pr, pr ∈ collectComponents info order ∧ 1 < pr.2.length := by
  obtain ⟨i, hp⟩ := mem_posOk hx
  obtain ⟨j, hpj, hji, mr, hfix⟩ :=
    rootOf_chase hnd hvOk hblack order.length x i hp hp.1
  have hrr : rootOf info order.length (rootOf info order.length x) =
      rootOf info order.length x := rootOf_fixpoint hfix order.length
  obtain ⟨pr, hfind, hxmem⟩ :=
    foldl_comp_mem (fun nd => rootOf info order.length nd) order [] x hx
  obtain ⟨pr2, hfind2, hrmem⟩ :=
    foldl_comp_mem (fun nd => rootOf info order.length nd) order []
      (rootOf info order.length x) (posOk_mem hpj)
  rw [hrr] at hfind2
  have hpr : pr = pr2 := Option.some.inj (hfind.symm.trans hfind2)
  refine ⟨pr, List.mem_of_find?_eq_some hfind, ?_⟩
  exact one_lt_length_of_two_mem hxmem (by rw [hpr]; exact hrmem)
    (fun hEq => hne hEq.symm)

theorem getCycles_eq_nil_iff (D : DepGraph) (hC : D.Closed) :
    getCycles D = [] ↔ ¬ D.hasCycle := by
  obtain ⟨rok, rng, rks⟩ := sccFinal_facts D hC
  have hflagiff := sccFlag_iff D hC
  set S := sccLoop D (D.keys.length + 1) D.keys SccState.init with hS
  constructor
  · intro hnil hcyc
    have hfl : S.cyclesFlag = true := hflagiff.mpr hcyc
    have hblack : ∀ x ∈ S.order, ∃ mi p, S.info x = some (NodeInfo.visited mi p) := by
      intro x hx
      have hsome : (S.info x).isSome = true := (rok.dom x).mpr hx
      rcases hinfo : S.info x with _ | nn
      · rw [hinfo] at hsome
        cases hsome
      · rcases nn with ⟨i, mi⟩ | ⟨mi, p⟩
        · exact absurd ⟨i, mi, hinfo⟩ (rng x)
        · exact ⟨mi, p, rfl⟩
    have hmain : ∀ x ∈ S.order, rootOf S.info S.order.length x ≠ x →
        getCycles D ≠ [] := by
      intro x hx hne hnil2
      obtain ⟨pr, hpr, hlen⟩ := comps_two_mem rok.nodup rok.visitedOk hblack hx hne
      have hmem : pr.2 ∈ getCycles D := by
        simp only [getCycles]
        rw [← hS, if_neg (by simp [hfl])]
        exact List.mem_append_right _
          (List.mem_filter.mpr ⟨List.mem_map_of_mem Prod.snd hpr, decide_eq_true hlen⟩)
      rw [hnil2] at hmem
      exact List.not_mem_nil pr.2 hmem
    rcases rok.flagWit hfl with hself | ⟨x, i, hq, hs, hm⟩
    · rcases hsc : S.selfCycle with _ | ⟨n, srest⟩
      · exact hself hsc
      have hnmem : n ∈ S.selfCycle := by
        rw [hsc]
        exact List.mem_cons_self _ _
      have hnord : n ∈ S.order := rok.selfsub n hnmem
      have hnil3 := hnil
      simp only [getCycles] at hnil3
      rw [← hS, if_neg (by simp [hfl])] at hnil3
      rcases List.append_eq_nil.mp hnil3 with ⟨hL, hR⟩
      have hqn := List.filter_eq_nil_iff.mp (List.map_eq_nil_iff.mp hL) n hnmem
      by_cases hA : (rootOf S.info S.order.length n == n) = true
      · have hB : (match (collectComponents S.info S.order).find? (fun p => p.1 = n) with
            | some p => decide (1 < p.2.length)
            | none => false) = true := by
          rcases hmb : (match (collectComponents S.info S.order).find?
              (fun p => p.1 = n) with
            | some p => decide (1 < p.2.length)
            | none => false) with _ | _
          · exact absurd (by rw [hA, hmb]; rfl) hqn
          · exact hmb
        rcases hf : (collectComponents S.info S.order).find? (fun p => p.1 = n)
            with _ | p
        · rw [hf] at hB
          cases hB
        · rw [hf] at hB
          have hplen : 1 < p.2.length := of_decide_eq_true hB
          have hmem : p.2 ∈ getCycles D := by
            simp only [getCycles]
            rw [← hS, if_neg (by simp [hfl])]
            exact List.mem_append_right _
              (List.mem_filter.mpr
                ⟨List.mem_map_of_mem Prod.snd (List.mem_of_find?_eq_some hf),
                  decide_eq_true hplen⟩)
          rw [hnil] at hmem
          exact List.not_mem_nil p.2 hmem
      · have hne : rootOf S.info S.order.length n ≠ n := by
          intro h
          exact hA (by rw [h]; exact beq_self_eq_true n)
        exact hmain n hnord hne hnil
    · rcases hinfo : S.info x with _ | nn
      · rw [hinfo] at hs
        cases hs
      rcases nn with ⟨ii, mi⟩ | ⟨mi, p⟩
      · exact absurd ⟨ii, mi, hinfo⟩ (rng x)
      · have hm2 : mi < i := by
          rw [infoMin_eq hinfo] at hm
          exact hm
        have hne := rootOf_moved rok.nodup rok.visitedOk hblack hq hinfo hm2
        exact hmain x (posOk_mem hq) hne hnil
  · intro hncyc
    have hfl : S.cyclesFlag = false := by
      rcases h : S.cyclesFlag with _ | _
      · rfl
      · exact absurd (hflagiff.mp h) hncyc
    simp only [getCycles]
    rw [← hS, if_pos hfl]

/-- C6: for a closed dependency mapping that contains a cycle, resolver
creation under mode `simple` or `detailed` fails with a
`CyclicDependencyError` (so no accessor state is handed out); the `detailed`
error carries the normalized cycle list while the `simple` error's cycles
field is absent; for an acyclic mapping neither mode fails. -/
theorem C6_validation_faults {α ε : Type} (D : DepGraph) (P : Providers α ε)
    (hC : D.Closed) :
    (D.hasCycle →
      makeInjector D P CheckMode.simple =
        Except.error (mkCyclicDependencyError STANDARD_MESSAGE none) ∧
      makeInjector D P CheckMode.detailed =
        Except.error (mkCyclicDependencyError STANDARD_MESSAGE (some (getCycles D))) ∧
      (mkCyclicDependencyError STANDARD_MESSAGE none).cycles = none ∧
      (mkCyclicDependencyError STANDARD_MESSAGE (some (getCycles D))).cycles =
        some (normalizeCycles (getCycles D))) ∧
    (¬ D.hasCycle →
      makeInjector D P CheckMode.simple = Except.ok RState.init ∧
      makeInjector D P CheckMode.detailed = Except.ok RState.init) := by
  constructor
  · intro hcyc
    have hany : anyCycilcDependencies D = true := (anyCycilc_iff_hasCycle D hC).mpr hcyc
    have hne : getCycles D ≠ [] := fun h => ((getCycles_eq_nil_iff D hC).mp h) hcyc
    refine ⟨?_, ?_, rfl, rfl⟩
    · simp [makeInjector, hany]
    · have hlen : (getCycles D).length > 0 := List.length_pos.mpr hne
      simp [makeInjector, hlen]
  · intro hncyc
    have hany : anyCycilcDependencies D = false := by
      rcases h : anyCycilcDependencies D with _ | _
      · rfl
      · exact absurd ((anyCycilc_iff_hasCycle D hC).mp h) hncyc
    have hnil : getCycles D = [] := (getCycles_eq_nil_iff D hC).mpr hncyc
    constructor
    · simp [makeInjector, hany]
    · simp [makeInjector, hnil]

/-- Witness for C6 at the one-member self-loop mapping. -/
theorem C6_validation_faults_witness :
    (Dselfa.hasCycle →
      makeInjector Dselfa Pnull CheckMode.simple =
        Except.error (mkCyclicDependencyError STANDARD_MESSAGE none) ∧
      makeInjector Dselfa Pnull CheckMode.detailed =
        Except.error
          (mkCyclicDependencyError STANDARD_MESSAGE (some (getCycles Dselfa))) ∧
      (mkCyclicDependencyError STANDARD_MESSAGE none).cycles = none ∧
      (mkCyclicDependencyError STANDARD_MESSAGE (some (getCycles Dselfa))).cycles =
        some (normalizeCycles (getCycles Dselfa))) ∧
    (¬ Dselfa.hasCycle →
      makeInjector Dselfa Pnull CheckMode.simple = Except.ok RState.init ∧
      makeInjector Dselfa Pnull CheckMode.detailed = Except.ok RState.init) :=
  C6_validation_faults Dselfa Pnull (by decide)

end ChaqDI
